import Mathlib

/-!
# vsolver: import scanner (`godep.go`) and bimodal fixtures (`bimodal_test.go`)

A shallow embedding of the two source files and theorems about them.

Modelling conventions.

* A Go `string` is a Lean `String`.  Go compares strings byte-wise; on UTF-8
  text that is the lexicographic order of the code points, which is the order
  of the character lists `s.data`.  `strings.HasPrefix` / `strings.HasSuffix`
  are prefix / suffix tests on the same lists.
* A Go slice is a `List`; the `nil` slice and the empty slice are both `[]`.
* A Go `map[K]V` is a function `K → Option V` (`none`: no entry), a
  `map[string]struct{}` is a `Finset String`.
* A function that can `panic` or return an `error` returns `Except`.
-/

namespace Vsolver

/-! ## Go standard library pieces used by the sources -/

/-- Go `strings.HasPrefix(s, pre)`. -/
def HasPrefix (s pre : String) : Bool := pre.data.isPrefixOf s.data

/-- Go `strings.HasSuffix(s, suf)`. -/
def HasSuffix (s suf : String) : Bool := suf.data.isSuffixOf s.data

/-- Go `a < b` on strings. -/
def Less (a b : String) : Bool := decide (a.data < b.data)

/-- Go `sort.StringsAreSorted`: scanning from the end, no element is smaller
than its predecessor. -/
def StringsAreSorted : List String → Bool
  | [] => true
  | [_] => true
  | a :: b :: rest => !Less b a && StringsAreSorted (b :: rest)

/-- Go `sort.Strings`: the ascending rearrangement of the slice (strings that
compare equal are identical, so the result does not depend on the sorting
algorithm). -/
def Strings (a : List String) : List String :=
  a.insertionSort (fun x y => x.data ≤ y.data)

/-- Go `strings.Split(s, sep)` for a one-character separator, on the
character list of `s`. -/
def splitOn (sep : Char) : List Char → List (List Char)
  | [] => [[]]
  | c :: cs =>
    if c = sep then [] :: splitOn sep cs
    else
      match splitOn sep cs with
      | [] => [[c]]
      | h :: t => (c :: h) :: t

/-- One path element in `filepath.Clean`: empty elements and `.` are dropped,
`..` removes the last real element (or is kept in front of a non-rooted
path), any other element is appended.  `out` is the stack of elements written
so far, last one first. -/
def cleanStep (rooted : Bool) (out : List (List Char)) (elem : List Char) : List (List Char) :=
  if elem = [] ∨ elem = ['.'] then out
  else if elem = ['.', '.'] then
    match out with
    | top :: below => if top = ['.', '.'] then elem :: out else below
    | [] => if rooted then [] else [elem]
  else elem :: out

/-- Go `filepath.Clean` (slash-separated paths): the shortest equivalent path
by purely lexical processing. -/
def Clean (path : String) : String :=
  if path = "" then "."
  else
    let rooted := path.data.head? = some '/'
    let out := (splitOn '/' path.data).foldl (cleanStep rooted) []
    let body := List.intercalate ['/'] out.reverse
    if rooted then String.mk ('/' :: body)
    else if body = [] then "."
    else String.mk body

/-- Go `filepath.Join(a, b)`: the elements from the first non-empty one on,
joined by a slash and cleaned. -/
def Join (a b : String) : String :=
  if a ≠ "" then Clean (a ++ "/" ++ b)
  else if b ≠ "" then Clean b
  else ""

/-- Remove trailing slashes. -/
def stripTrailingSlashes (path : List Char) : List Char :=
  (path.reverse.dropWhile (fun c => c = '/')).reverse

/-- The part after the last slash (everything when there is none). -/
def lastElement (path : List Char) : List Char :=
  (path.reverse.takeWhile (fun c => c ≠ '/')).reverse

/-- Go `filepath.Base`: the last element of the path. -/
def Base (path : String) : String :=
  if path = "" then "."
  else
    let e := lastElement (stripTrailingSlashes path.data)
    if e = [] then "/" else String.mk e

/-- Go `filepath.Dir`: all but the last element of the path, cleaned. -/
def Dir (path : String) : String :=
  Clean (String.mk (path.data.reverse.dropWhile (fun c => c ≠ '/')).reverse)

/-- Go `unicode.IsSpace`. -/
def IsSpace (r : Char) : Bool :=
  let n := r.toNat
  n = 0x09 || n = 0x0A || n = 0x0B || n = 0x0C || n = 0x0D || n = 0x20 || n = 0x85 || n = 0xA0 ||
  n = 0x1680 || (0x2000 ≤ n && n ≤ 0x200A) || n = 0x2028 || n = 0x2029 || n = 0x202F ||
  n = 0x205F || n = 0x3000

/-- Go `strings.FieldsFunc(s, f)`: the maximal runs of characters not
satisfying `f`.  `cur` is the run being read, last character first. -/
def fieldsAux (f : Char → Bool) : List Char → List Char → List String
  | [], cur => if cur = [] then [] else [String.mk cur.reverse]
  | c :: cs, cur =>
    if f c then
      (if cur = [] then [] else [String.mk cur.reverse]) ++ fieldsAux f cs []
    else fieldsAux f cs (c :: cur)

/-- Go `strings.FieldsFunc`. -/
def FieldsFunc (s : String) (f : Char → Bool) : List String := fieldsAux f s.data []

/-- The text `ct[i+len(m):]` for `i := strings.Index(ct, m)`, or `none` when
`i == -1`: what follows the first occurrence of `m`. -/
def afterFirst (m : List Char) : List Char → Option (List Char)
  | [] => if m = [] then some [] else none
  | c :: cs =>
    if m.isPrefixOf (c :: cs) then some ((c :: cs).drop m.length) else afterFirst m cs

/-! ## `godep.go`: `uniq` -/

/-- State of the compaction loop of `uniq`: the backing array `a`, the write
index `i` and the last string kept `s`. -/
structure UniqState where
  a : List String
  i : Nat
  s : String

/-- Body of `for _, t := range a` in `uniq`, at read index `j`:
`if t != s { a[i] = t; i++; s = t }`, with `t` read from the (shared) backing
array. -/
def uniqStep (st : UniqState) (j : Nat) : UniqState :=
  let t := st.a.getD j ""
  if t ≠ st.s then { a := st.a.set st.i t, i := st.i + 1, s := t } else st

/-- The function `uniq` of `godep.go`. -/
def uniq (a : List String) : List String :=
  if a = [] then []
  else
    let a := if StringsAreSorted a then a else Strings a
    let st := (List.range a.length).foldl uniqStep { a := a, i := 0, s := "" }
    st.a.take st.i

/-! ## `godep.go`: `fillPackage` -/

/-- Go `error` values met in `fillPackage`. -/
inductive Error where
  /-- An `errors.New(msg)`. -/
  | new (msg : String)
  /-- A `*build.NoGoError` for the directory. -/
  | noGo (dir : String)
  /-- An error returned by a library call (glob, parser, unquote). -/
  | lib (msg : String)
deriving DecidableEq, Repr

/-- The fields of `build.Package` that `fillPackage` reads or writes. -/
structure Package where
  Dir : String
  Name : String
  ImportPath : String
  Root : String
  SrcRoot : String
  Goroot : Bool
  GoFiles : List String
  IgnoredGoFiles : List String
  TestGoFiles : List String
  Imports : List String
  TestImports : List String
deriving DecidableEq, Repr

/-- A comment group of a parsed file: its position `c.Pos()` and text
`c.Text()`. -/
structure CommentGroup where
  Pos : Nat
  Text : String
deriving DecidableEq, Repr

/-- What `fillPackage` reads of an `*ast.File`: the position of the `package`
keyword, the package name `pf.Name.Name`, the comment groups and the import
path literals `is.Path.Value`. -/
structure File where
  Package : Nat
  Name : String
  Comments : List CommentGroup
  Imports : List String
deriving DecidableEq, Repr

/-- The world outside `godep.go`: the package-level variable `ignoreTags`
(initialised to the empty list in the source), `build.Default.SrcDirs()`, the
file system as seen by `filepath.Glob` and `parser.ParseFile`, and
`strconv.Unquote`. -/
structure Env where
  ignoreTags : List String
  SrcDirs : List String
  Glob : String → Except Error (List String)
  ParseFile : String → Except Error File
  Unquote : String → Except Error String

/-- The variable `buildMatch` of `fillPackage`. -/
def buildMatch : String := "+build "

/-- The closure `buildFieldSplit` of `fillPackage`. -/
def buildFieldSplit (r : Char) : Bool := IsSpace r || r = ','

/-- The loop over `pf.Comments` in `fillPackage` reaches `continue NextFile`:
some comment group not after the `package` keyword has, after its first
`+build `, a field equal to one of the ignored tags. -/
def ignoredByTags (ignoreTags : List String) (pf : File) : Bool :=
  pf.Comments.any fun c =>
    if c.Pos > pf.Package then false
    else
      match afterFirst buildMatch.data c.Text.data with
      | none => false
      | some rest =>
        (FieldsFunc (String.mk rest) buildFieldSplit).any fun t =>
          ignoreTags.any fun tag => t = tag

/-- The loop `for _, is := range pf.Imports` up to its first error:
`strconv.Unquote` of every import path literal. -/
def unquoteAll (env : Env) : List String → Except Error (List String)
  | [] => .ok []
  | lit :: rest =>
    match env.Unquote lit with
    | .error e => .error e
    | .ok name =>
      match unquoteAll env rest with
      | .error e => .error e
      | .ok names => .ok (name :: names)

/-- Go `strings.Split(s, "_")[0]`. -/
def beforeUnderscore (s : String) : String := String.mk (s.data.takeWhile (fun c => c ≠ '_'))

/-- The state of the loop over `gofiles` in `fillPackage`: the package being
filled and the local slices `imports` and `testImports`. -/
structure FillState where
  p : Package
  imports : List String
  testImports : List String

/-- The loop `NextFile: for _, file := range gofiles` of `fillPackage`.  An
error leaves the loop at once; the package it comes with is `*p` as written so
far. -/
def fileLoop (env : Env) : List String → FillState → Except (Error × Package) FillState
  | [], st => .ok st
  | file :: rest, st =>
    match env.ParseFile file with
    | .error e => .error (e, st.p)
    | .ok pf =>
      let testFile := HasSuffix file "_test.go"
      let fname := Base file
      if ignoredByTags env.ignoreTags pf then
        fileLoop env rest
          { st with p := { st.p with IgnoredGoFiles := st.p.IgnoredGoFiles ++ [fname] } }
      else
        let p :=
          if testFile then
            { st.p with
              TestGoFiles := st.p.TestGoFiles ++ [fname]
              Name := if st.p.Name = "" then beforeUnderscore pf.Name else st.p.Name }
          else
            { st.p with
              Name := if st.p.Name = "" then pf.Name else st.p.Name
              GoFiles := st.p.GoFiles ++ [fname] }
        match unquoteAll env pf.Imports with
        | .error e => .error (e, p)
        | .ok names =>
          if testFile then
            fileLoop env rest { p := p, imports := st.imports, testImports := st.testImports ++ names }
          else
            fileLoop env rest { p := p, imports := st.imports ++ names, testImports := st.testImports }

/-- The loop over `build.Default.SrcDirs()` run when `p.SrcRoot` is empty: the
last source directory that is a prefix of `p.Dir`. -/
def findSrcRoot (srcDirs : List String) (p : Package) : Package :=
  srcDirs.foldl (fun p base => if HasPrefix p.Dir base then { p with SrcRoot := base } else p) p

/-- The block `if p.SrcRoot == "" { ... }` of `fillPackage`. -/
def setSrcRoot (env : Env) (p : Package) : Package :=
  if p.SrcRoot = "" then findSrcRoot env.SrcDirs p else p

/-- The block `if p.Root == "" { p.Root = filepath.Dir(p.SrcRoot) }` of
`fillPackage`. -/
def setRoot (p : Package) : Package :=
  if p.Root = "" then { p with Root := Dir p.SrcRoot } else p

/-- The function `fillPackage` of `godep.go`: the returned error (`none` for
`nil`) and the package `*p` after the call. -/
def fillPackage (env : Env) (p : Package) : Option Error × Package :=
  if p.Goroot then (none, p)
  else
    let p := setSrcRoot env p
    if p.SrcRoot = "" then
      (some (.new ("Unable to find SrcRoot for package " ++ p.ImportPath)), p)
    else
      let p := setRoot p
      match env.Glob (Join p.Dir "*.go") with
      | .error err => (some err, p)
      | .ok gofiles =>
        if gofiles.length = 0 then (some (.noGo p.Dir), p)
        else
          match fileLoop env gofiles { p := p, imports := [], testImports := [] } with
          | .error (err, p) => (some err, p)
          | .ok st =>
            let imports := uniq st.imports
            let testImports := uniq st.testImports
            (none, { st.p with Imports := imports, TestImports := testImports })

/-! ## `bimodal_test.go`: fixtures -/

/-- The type `tpkg`: a package with its own path and the paths that it
imports. -/
structure tpkg where
  path : String
  imports : List String
deriving DecidableEq, Repr

/-- The type `depspec` (declared outside the two files): project name `n`,
version `v`, declared constraints `deps` as pairs of project name and
constraint text, and packages `pkgs`.  The type of versions is a parameter. -/
structure depspec (V : Type) where
  n : String
  v : V
  deps : List (String × String)
  pkgs : List tpkg
deriving DecidableEq, Repr

/-- The function `dsp`: "depspec with packages". -/
def dsp {V : Type} (ds : depspec V) (pkgs : List tpkg) : depspec V :=
  { ds with pkgs := pkgs }

/-- The function `pkg`. -/
def pkg (path : String) (imports : List String) : tpkg :=
  { path := path, imports := imports }

/-- Split `"name rest"` at its first space. -/
def nsvSplit (info : String) : String × String :=
  (String.mk (info.data.takeWhile (fun c => c ≠ ' ')),
   String.mk ((info.data.dropWhile (fun c => c ≠ ' ')).drop 1))

/-- Modelled from the spec: `dsv` is declared outside the two files.  The
scenarios of the spec read `dsv("root 0.0.0", "b 1.0.0")` as the project `root`
at version `0.0.0` declaring the constraint `1.0.0` on `b`; versions and
constraints are kept as their text. -/
def dsv (pi : String) (deps : List String) : depspec String :=
  { n := (nsvSplit pi).1, v := (nsvSplit pi).2, deps := deps.map nsvSplit, pkgs := [] }

/-- Modelled from the spec: `mkresults` is declared outside the two files.  The
scenarios of the spec read `mkresults("a 1.0.0", "b 1.1.0")` as the selection
`{a: 1.0.0, b: 1.1.0}`: a map from project name to version text, filled pair
by pair. -/
def mkresults (pairs : List String) : String → Option String :=
  pairs.foldl (fun m pair => fun k => if k = (nsvSplit pair).1 then some (nsvSplit pair).2 else m k)
    (fun _ => none)

/-- The type `bimodalFixture` (without the lock simulator `l`). -/
structure bimodalFixture where
  n : String
  ds : List (depspec String)
  r : String → Option String
  maxAttempts : Nat
  downgrade : Bool
  errp : List String
  changeall : Bool

/-- A fixture literal giving only `ds` and `r`; the other fields have their
zero values. -/
def fixture (ds : List (depspec String)) (r : String → Option String) : bimodalFixture :=
  { n := "", ds := ds, r := r, maxAttempts := 0, downgrade := false, errp := [], changeall := false }

/-- The composite literal assigned to `bimodalFixtures`, as the list of its
keyed entries. -/
def bimodalFixturesLiteral : List (String × bimodalFixture) :=
  [ ("simple bm-add", fixture
      [ dsp (dsv "root 0.0.0" []) [pkg "root" ["a"]],
        dsp (dsv "a 1.0.0" []) [pkg "a" []] ]
      (mkresults ["a 1.0.0"])),
    ("subpkg bm-add", fixture
      [ dsp (dsv "root 0.0.0" []) [pkg "root" ["root/foo"], pkg "root/foo" ["a"]],
        dsp (dsv "a 1.0.0" []) [pkg "a" []] ]
      (mkresults ["a 1.0.0"])),
    ("double-subpkg bm-add", fixture
      [ dsp (dsv "root 0.0.0" [])
          [pkg "root" ["root/foo"], pkg "root/foo" ["root/bar"], pkg "root/bar" ["a"]],
        dsp (dsv "a 1.0.0" []) [pkg "a" []] ]
      (mkresults ["a 1.0.0"])),
    ("double nested subpkg bm-add", fixture
      [ dsp (dsv "root 0.0.0" [])
          [pkg "root" ["root/foo"], pkg "root/foo" ["root/foo/bar"], pkg "root/foo/bar" ["a"]],
        dsp (dsv "a 1.0.0" []) [pkg "a" []] ]
      (mkresults ["a 1.0.0"])),
    ("bm-add on project with no pkg in root dir", fixture
      [ dsp (dsv "root 0.0.0" []) [pkg "root" ["a/foo"]],
        dsp (dsv "a 1.0.0" []) [pkg "a/foo" []] ]
      (mkresults ["a 1.0.0"])),
    ("transitive bm-add", fixture
      [ dsp (dsv "root 0.0.0" []) [pkg "root" ["root/foo"], pkg "root/foo" ["a"]],
        dsp (dsv "a 1.0.0" []) [pkg "a" ["b"]],
        dsp (dsv "b 1.0.0" []) [pkg "b" []] ]
      (mkresults ["a 1.0.0", "b 1.0.0"])),
    ("constraints activated by import", fixture
      [ dsp (dsv "root 0.0.0" ["b 1.0.0"]) [pkg "root" ["root/foo"], pkg "root/foo" ["a"]],
        dsp (dsv "a 1.0.0" []) [pkg "a" ["b"]],
        dsp (dsv "b 1.0.0" []) [pkg "b" []],
        dsp (dsv "b 1.1.0" []) [pkg "b" []] ]
      (mkresults ["a 1.0.0", "b 1.1.0"])),
    ("transitive bm-add on older version", fixture
      [ dsp (dsv "root 0.0.0" ["a ~1.0.0"]) [pkg "root" ["root/foo"], pkg "root/foo" ["a"]],
        dsp (dsv "a 1.0.0" []) [pkg "a" ["b"]],
        dsp (dsv "a 1.1.0" []) [pkg "a" []],
        dsp (dsv "b 1.0.0" []) [pkg "b" []] ]
      (mkresults ["a 1.0.0", "b 1.0.0"])),
    ("backtrack to dep on bm-add", fixture
      [ dsp (dsv "root 0.0.0" []) [pkg "root" ["root/foo"], pkg "root/foo" ["a", "b"]],
        dsp (dsv "a 1.0.0" []) [pkg "a" ["c"]],
        dsp (dsv "a 1.1.0" []) [pkg "a" []],
        dsp (dsv "b 0.9.0" []) [pkg "b" ["c"]],
        dsp (dsv "b 1.0.0" []) [pkg "b" ["c"]],
        dsp (dsv "c 1.0.0" ["a 1.0.0"]) [pkg "c" ["a"]] ]
      (mkresults ["a 1.0.0", "b 1.0.0", "c 1.0.0"])),
    ("transitive subpkg bm-add", fixture
      [ dsp (dsv "root 0.0.0" []) [pkg "root" ["root/foo"], pkg "root/foo" ["a"]],
        dsp (dsv "a 1.0.0" []) [pkg "a" ["a/bar"], pkg "a/bar" ["b"]],
        dsp (dsv "b 1.0.0" []) [pkg "b" []] ]
      (mkresults ["a 1.0.0", "b 1.0.0"])),
    ("transitive subpkg bm-add on older version", fixture
      [ dsp (dsv "root 0.0.0" ["a ~1.0.0"]) [pkg "root" ["root/foo"], pkg "root/foo" ["a"]],
        dsp (dsv "a 1.0.0" []) [pkg "a" ["a/bar"], pkg "a/bar" ["b"]],
        dsp (dsv "a 1.1.0" []) [pkg "a" ["a/bar"]],
        dsp (dsv "b 1.0.0" []) [pkg "b" []] ]
      (mkresults ["a 1.0.0", "b 1.0.0"])),
    ("ignore constraint without import", fixture
      [ dsp (dsv "root 0.0.0" ["a 1.0.0"]) [pkg "root" ["root/foo"]],
        dsp (dsv "a 1.0.0" []) [pkg "a" []] ]
      (mkresults [])),
    ("multi-stage pkg incorporation", fixture
      [ dsp (dsv "root 0.0.0" []) [pkg "root" ["a", "d"]],
        dsp (dsv "a 1.0.0" []) [pkg "a" ["b"], pkg "a/second" ["c"]],
        dsp (dsv "b 2.0.0" []) [pkg "b" []],
        dsp (dsv "c 1.2.0" []) [pkg "c" []],
        dsp (dsv "d 1.0.0" []) [pkg "d" ["a/second"]] ]
      (mkresults ["a 1.0.0", "b 2.0.0", "c 1.2.0", "d 1.0.0"])),
    ("radix path separator post-check", fixture
      [ dsp (dsv "root 0.0.0" []) [pkg "root" ["foo", "foobar"]],
        dsp (dsv "foo 1.0.0" []) [pkg "foo" []],
        dsp (dsv "foobar 1.0.0" []) [pkg "foobar" []] ]
      (mkresults ["foo 1.0.0", "foobar 1.0.0"])) ]

/-- The map `bimodalFixtures` after `init()`: every fixture carries its key as
its name `n`. -/
def bimodalFixtures : List (String × bimodalFixture) :=
  bimodalFixturesLiteral.map fun kf => (kf.1, { kf.2 with n := kf.1 })

/-- The entry `bimodalFixtures[k]`. -/
def fixtureNamed (k : String) : Option bimodalFixture :=
  (bimodalFixtures.find? fun kf => kf.1 = k).map Prod.snd

/-! ## `bimodal_test.go`: `bmSourceManager.ListPackages` -/

/-- The error built by `fmt.Errorf("Project %s at version %s could not be
found", n, v)`. -/
structure NotFound (V : Type) where
  n : String
  v : V
deriving DecidableEq, Repr

/-- The map filled by `for _, pkg := range ds.pkgs { m[pkg.path] = pkg.path }`
starting from the empty map. -/
def pkgMap (pkgs : List tpkg) : String → Option String :=
  pkgs.foldl (fun m pkg => fun k => if k = pkg.path then some pkg.path else m k) (fun _ => none)

/-- The condition `n == ds.n && (k == 0 || ds.v.Matches(v))` of `ListPackages`.
`Matches a b` is the method call `a.Matches(b)` on versions. -/
def selects {V : Type} (Matches : V → V → Bool) (n : String) (v : V) (k : Nat)
    (ds : depspec V) : Bool :=
  n = ds.n && (k = 0 || Matches ds.v v)

/-- The loop `for k, ds := range sm.specs` of `ListPackages`, from index `k`
on. -/
def listPackagesFrom {V : Type} (Matches : V → V → Bool) (n : String) (v : V) :
    Nat → List (depspec V) → Except (NotFound V) (String → Option String)
  | _, [] => .error { n := n, v := v }
  | k, ds :: rest =>
    if selects Matches n v k ds then .ok (pkgMap ds.pkgs)
    else listPackagesFrom Matches n v (k + 1) rest

/-- The method `bmSourceManager.ListPackages`, on the field `specs` of the
source manager. -/
def ListPackages {V : Type} (Matches : V → V → Bool) (specs : List (depspec V))
    (n : String) (v : V) : Except (NotFound V) (String → Option String) :=
  listPackagesFrom Matches n v 0 specs

/-! ## `bimodal_test.go`: `computeBimodalExternalMap` -/

/-- The type `wm` (declared outside the two files): the external imports `ex`
and the unresolved internal imports `in` of a package, both sets of paths. -/
structure wm where
  ex : Finset String
  in_ : Finset String
deriving DecidableEq

/-- A `map[string]wm`. -/
abbrev Workmap := String → Option wm

/-- A `map[string][]string`, the result type of `wmToReach`. -/
abbrev ReachMap := String → Option (List String)

/-- The type `pident`. -/
structure pident (V : Type) where
  n : String
  v : V
deriving DecidableEq, Repr

/-- The two `panic`s of `computeBimodalExternalMap`. -/
inductive Panic where
  /-- The message "pkg ... is not a child of ..., cannot be a part of that project". -/
  | notChild (pkg n : String)
  /-- The call `panic(err)` on an error of `wmToReach`. -/
  | reach (err : Error)
deriving DecidableEq, Repr

/-- Body of `for _, imp := range pkg.imports` for the package entry `w` under
construction, in the project named `n`. -/
def impStep (n : String) (workmap : Workmap) (w : wm) (imp : String) : wm :=
  if !HasPrefix (Clean imp) n then
    { w with ex := insert imp w.ex }
  else
    match workmap imp with
    | some w2 => { ex := w.ex ∪ w2.ex, in_ := w.in_ ∪ w2.in_ }
    | none => { w with in_ := insert imp w.in_ }

/-- Body of `for _, pkg := range d.pkgs`. -/
def pkgStep (n : String) (workmap : Workmap) (pkg : tpkg) : Except Panic Workmap :=
  if !HasPrefix (Clean pkg.path) n then
    .error (.notChild pkg.path n)
  else
    let w := pkg.imports.foldl (impStep n workmap) { ex := ∅, in_ := ∅ }
    .ok fun k => if k = pkg.path then some w else workmap k

/-- The loop `for _, pkg := range d.pkgs`, continuing from `workmap`. -/
def pkgLoop (n : String) : List tpkg → Workmap → Except Panic Workmap
  | [], workmap => .ok workmap
  | pkg :: rest, workmap =>
    match pkgStep n workmap pkg with
    | .error e => .error e
    | .ok workmap => pkgLoop n rest workmap

/-- The workmap-building pass for one depspec: `workmap := make(map[string]wm)`
followed by the loop over `d.pkgs`. -/
def buildWorkmap {V : Type} (d : depspec V) : Except Panic Workmap :=
  pkgLoop d.n d.pkgs (fun _ => none)

/-- The function `computeBimodalExternalMap`, from the reach map `rm` built so
far.  `wmToReach` is declared outside the two files and is a parameter.  The
result lists the assignments `rm[pident{n, v}] = drm` in the order they are
made. -/
def computeFrom {V : Type} (wmToReach : Workmap → String → Except Error ReachMap) :
    List (depspec V) → List (pident V × ReachMap) → Except Panic (List (pident V × ReachMap))
  | [], rm => .ok rm
  | d :: rest, rm =>
    match buildWorkmap d with
    | .error e => .error e
    | .ok workmap =>
      match wmToReach workmap "" with
      | .error err => .error (.reach err)
      | .ok drm => computeFrom wmToReach rest (rm ++ [({ n := d.n, v := d.v }, drm)])

/-- The function `computeBimodalExternalMap`. -/
def computeBimodalExternalMap {V : Type} (wmToReach : Workmap → String → Except Error ReachMap)
    (ds : List (depspec V)) : Except Panic (List (pident V × ReachMap)) :=
  computeFrom wmToReach ds []

/-- The test of `computeBimodalExternalMap` on an import: the project name is a
string prefix of the cleaned path. -/
def codeInternal (n imp : String) : Bool := HasPrefix (Clean imp) n

/-- The partition of the spec: an import is internal to the project `n` when its
cleaned path equals `n` or begins with `n` followed by a slash, and external
otherwise. -/
def specInternal (n imp : String) : Bool :=
  Clean imp = n || HasPrefix (Clean imp) (n ++ "/")

/-- The reach set of the spec for the packages `pkgs` of project `n`, as the
least relation closed under: a direct external import of a package is reached
from its path; what is reached from an internal import of a package is reached
from its path.  Internal and external are those of the spec. -/
inductive Reach (n : String) (pkgs : List tpkg) : String → String → Prop where
  | direct (p : tpkg) (imp : String) :
      p ∈ pkgs → imp ∈ p.imports → specInternal n imp = false → Reach n pkgs p.path imp
  | step (p : tpkg) (q e : String) :
      p ∈ pkgs → q ∈ p.imports → specInternal n q = true → Reach n pkgs q e →
      Reach n pkgs p.path e

/-! ## Auxiliary definitions used in the proofs -/

/-- The strings kept by the compaction loop when it starts with last kept
string `s`. -/
def kept (s : String) : List String → List String
  | [] => []
  | t :: ts => if t ≠ s then t :: kept t ts else kept s ts

/-- The last string kept after running over a list. -/
def lastKept (s : String) : List String → String
  | [] => s
  | t :: ts => if t ≠ s then lastKept t ts else lastKept s ts

/-- Invariant of the in-place loop after `j` iterations. -/
structure UniqInv (orig : List String) (j : Nat) (st : UniqState) : Prop where
  len : st.a.length = orig.length
  idx : st.i = (kept "" (orig.take j)).length
  pre : st.a.take st.i = kept "" (orig.take j)
  last : st.s = lastKept "" (orig.take j)
  rest : ∀ k, st.i ≤ k → st.a.getD k "" = orig.getD k ""

/-- What the workmap records for a package, against the reach relation. -/
structure EntryOk (n : String) (pkgs : List tpkg) (p : tpkg) (w : wm) : Prop where
  direct : ∀ imp ∈ p.imports, specInternal n imp = false → imp ∈ w.ex
  sound : ∀ e ∈ w.ex, Reach n pkgs p.path e
  deferred : ∀ q ∈ w.in_, ∀ e, Reach n pkgs q e → Reach n pkgs p.path e
  complete : ∀ e, Reach n pkgs p.path e → e ∈ w.ex ∨ ∃ q ∈ w.in_, Reach n pkgs q e

/-! ## Concrete inputs used to instantiate the theorems -/

/-- A directory with a plain file, a test file and a generated file carrying a
build tag. -/
def exampleFiles : List String :=
  ["/go/src/x/a.go", "/go/src/x/a_test.go", "/go/src/x/gen.go"]

/-- The parse results for `exampleFiles`; import path literals are written as
raw string literals. -/
def exampleParse (file : String) : Except Error File :=
  if file = "/go/src/x/a.go" then
    .ok { Package := 1, Name := "x", Comments := [], Imports := ["`os`", "`fmt`", "`os`"] }
  else if file = "/go/src/x/a_test.go" then
    .ok { Package := 1, Name := "x_test", Comments := [], Imports := ["`testing`", "`fmt`"] }
  else if file = "/go/src/x/gen.go" then
    .ok { Package := 20, Name := "main", Comments := [{ Pos := 1, Text := "+build ignore" }],
          Imports := ["`flag`"] }
  else .error (.lib "no such file")

/-- Unquoting of a raw string literal: the text between the two back quotes. -/
def exampleUnquote (lit : String) : Except Error String :=
  if lit.data.head? = some (Char.ofNat 96) ∧ lit.data.getLast? = some (Char.ofNat 96)
      ∧ 2 ≤ lit.data.length then
    .ok (String.mk ((lit.data.drop 1).take (lit.data.length - 2)))
  else .error (.lib "invalid syntax")

/-- An environment with one source directory and the tag `ignore` ignored. -/
def exampleEnv : Env :=
  { ignoreTags := ["ignore"]
    SrcDirs := ["/go/src"]
    Glob := fun pattern => if pattern = "/go/src/x/*.go" then .ok exampleFiles else .ok []
    ParseFile := exampleParse
    Unquote := exampleUnquote }

/-- A package of which only `Dir` and `ImportPath` are set. -/
def examplePkg : Package :=
  { Dir := "/go/src/x", Name := "", ImportPath := "x", Root := "", SrcRoot := "",
    Goroot := false, GoFiles := [], IgnoredGoFiles := [], TestGoFiles := [],
    Imports := [], TestImports := [] }

/-- A standard-library package. -/
def exampleGorootPkg : Package :=
  { Dir := "/usr/lib/go/src/fmt", Name := "fmt", ImportPath := "fmt", Root := "/usr/lib/go",
    SrcRoot := "", Goroot := true, GoFiles := ["print.go"], IgnoredGoFiles := [],
    TestGoFiles := [], Imports := ["os"], TestImports := [] }

/-- The parsed file of a path in `exampleFiles`. -/
def exampleParsed (file : String) : File :=
  match exampleParse file with
  | .ok pf => pf
  | .error _ => { Package := 0, Name := "", Comments := [], Imports := [] }

/-- The text between the two back quotes of a raw string literal. -/
def exampleUnq (lit : String) : String :=
  String.mk ((lit.data.drop 1).take (lit.data.length - 2))

/-- Versions as text match when they are equal. -/
def exampleMatches (a b : String) : Bool := a = b

/-- The root depspec of `exampleSpecs`. -/
def exampleRoot : depspec String :=
  dsp (dsv "root 0.0.0" ["b 1.0.0"]) [pkg "root" ["root/foo"], pkg "root/foo" ["a"]]

/-- The depspecs of the fixture "constraints activated by import". -/
def exampleSpecs : List (depspec String) :=
  [ exampleRoot,
    dsp (dsv "a 1.0.0" []) [pkg "a" ["b"]],
    dsp (dsv "b 1.0.0" []) [pkg "b" []],
    dsp (dsv "b 1.1.0" []) [pkg "b" []] ]

/-- A depspec whose two packages import each other. -/
def exampleCycle : depspec String :=
  dsp (dsv "root 0.0.0" []) [pkg "root" ["root/foo", "a"], pkg "root/foo" ["root", "b"]]

/-- A depspec whose package imports a path that has the project name as a
prefix without a separating slash. -/
def exampleFoobar : depspec String :=
  dsp (dsv "foo 1.0.0" []) [pkg "foo" ["foobar"]]

/-- A depspec with a package outside its project. -/
def exampleStray : depspec String :=
  dsp (dsv "b 1.0.0" []) [pkg "c" []]

/-- A `wmToReach` that reports no error and an empty reach map. -/
def exampleReach (_ : Workmap) (_ : String) : Except Error ReachMap := .ok fun _ => none


/-! ## Auxiliary: the compaction loop as a list function -/

theorem kept_append (s : String) (l : List String) (t : String) :
    kept s (l ++ [t]) = kept s l ++ (if t ≠ lastKept s l then [t] else []) := by
  induction l generalizing s with
  | nil => simp [kept, lastKept]
  | cons x xs ih =>
    by_cases h : x = s
    · simp [kept, lastKept, h, ih]
    · simp [kept, lastKept, h, ih]

theorem lastKept_append (s : String) (l : List String) (t : String) :
    lastKept s (l ++ [t]) = if t ≠ lastKept s l then t else lastKept s l := by
  induction l generalizing s with
  | nil => simp [lastKept]
  | cons x xs ih =>
    by_cases h : x = s
    · simp [lastKept, h, ih]
    · simp [lastKept, h, ih]

theorem length_kept_le (s : String) (l : List String) : (kept s l).length ≤ l.length := by
  induction l generalizing s with
  | nil => simp [kept]
  | cons x xs ih =>
    by_cases h : x = s
    · simp only [kept, h, ne_eq, not_true_eq_false, ite_false, List.length_cons]
      exact Nat.le_succ_of_le (ih s)
    · simp only [kept, h, ne_eq, not_false_eq_true, ite_true, List.length_cons]
      exact Nat.succ_le_succ (ih x)

theorem take_succ_set (l : List String) (i : Nat) (x : String) (h : i < l.length) :
    (l.set i x).take (i + 1) = l.take i ++ [x] := by
  induction l generalizing i with
  | nil => simp at h
  | cons y ys ih =>
    cases i with
    | zero => simp
    | succ i =>
      have h' : i < ys.length := by simpa using h
      simp [ih i h']

theorem getD_set_ne (l : List String) (i k : Nat) (x : String) (h : i ≠ k) :
    (l.set i x).getD k "" = l.getD k "" := by
  simp [List.getD_eq_getElem?_getD, List.getElem?_set_ne h]

theorem take_succ_getD (l : List String) (j : Nat) (h : j < l.length) :
    l.take (j + 1) = l.take j ++ [l.getD j ""] := by
  rw [List.take_succ]
  simp [List.getD, List.getElem?_eq_getElem h]

theorem uniqInv_loop (orig : List String) :
    ∀ j, j ≤ orig.length →
      UniqInv orig j ((List.range j).foldl uniqStep { a := orig, i := 0, s := "" }) := by
  intro j
  induction j with
  | zero =>
    intro _
    exact ⟨rfl, by simp [kept], by simp [kept], by simp [lastKept], fun _ _ => rfl⟩
  | succ j ih =>
    intro hj
    have hjlt : j < orig.length := hj
    have inv := ih (Nat.le_of_lt hjlt)
    rw [List.range_succ, List.foldl_append]
    simp only [List.foldl_cons, List.foldl_nil]
    generalize (List.range j).foldl uniqStep { a := orig, i := 0, s := "" } = st at inv
    obtain ⟨hlen, hidx, hpre, hlast, hrest⟩ := inv
    have hij : st.i ≤ j := by
      rw [hidx]
      exact le_trans (length_kept_le _ _) (by simp [List.length_take, Nat.le_of_lt hjlt])
    have htake := take_succ_getD orig j hjlt
    have hread : st.a.getD j "" = orig.getD j "" := hrest j hij
    have hilt : st.i < st.a.length := by rw [hlen]; exact lt_of_le_of_lt hij hjlt
    unfold uniqStep
    simp only [hread]
    generalize orig.getD j "" = t at htake
    by_cases hne : t = st.s
    · rw [if_neg (by simpa using hne)]
      have hne2 : t = lastKept "" (orig.take j) := by rw [← hlast]; exact hne
      refine ⟨hlen, ?_, ?_, ?_, hrest⟩
      · rw [htake, kept_append, if_neg (by simpa using hne2)]; simpa using hidx
      · rw [htake, kept_append, if_neg (by simpa using hne2)]; simpa using hpre
      · rw [htake, lastKept_append, if_neg (by simpa using hne2)]; exact hlast
    · rw [if_pos hne]
      have hne2 : t ≠ lastKept "" (orig.take j) := by rw [← hlast]; exact hne
      refine ⟨by simp [hlen], ?_, ?_, ?_, ?_⟩
      · rw [htake, kept_append, if_pos hne2]; simp [hidx]
      · rw [htake, kept_append, if_pos hne2]
        show ((st.a.set st.i t).take (st.i + 1)) = _
        rw [take_succ_set _ _ _ hilt, hpre]
      · rw [htake, lastKept_append, if_pos hne2]
      · intro k hk
        have hk' : st.i ≠ k := by
          have : st.i + 1 ≤ k := hk
          omega
        show (st.a.set st.i t).getD k "" = _
        rw [getD_set_ne _ _ _ _ hk']
        exact hrest k (by have : st.i + 1 ≤ k := hk; omega)

/-- The in-place loop of `uniq` keeps exactly the strings of `kept`. -/
theorem uniq_eq_kept (a : List String) :
    uniq a = kept "" (if StringsAreSorted a then a else Strings a) := by
  unfold uniq
  by_cases h : a = []
  · subst h; simp [kept, StringsAreSorted]
  · rw [if_neg h]
    have inv := uniqInv_loop (if StringsAreSorted a then a else Strings a) _ (Nat.le_refl _)
    simp only
    rw [inv.pre, List.take_length]

/-! ## Order facts on Go strings -/

theorem less_iff (a b : String) : Less a b = true ↔ a.data < b.data := by
  simp [Less]

theorem data_injective {a b : String} (h : a.data = b.data) : a = b := by
  cases a; cases b; simp_all

theorem empty_data_le (a : String) : ("" : String).data ≤ a.data := by
  show ([] : List Char) ≤ a.data
  cases h : a.data with
  | nil => exact le_refl _
  | cons c cs => exact le_of_lt (List.Lex.nil)

theorem sorted_of_StringsAreSorted :
    ∀ a : List String, StringsAreSorted a = true →
      a.Sorted (fun x y => x.data ≤ y.data)
  | [], _ => List.sorted_nil
  | [_], _ => List.sorted_singleton _
  | a :: b :: rest, h => by
    simp only [StringsAreSorted, Bool.and_eq_true, Bool.not_eq_true', Less,
      decide_eq_false_iff_not, not_lt] at h
    have ih := sorted_of_StringsAreSorted (b :: rest) h.2
    refine List.sorted_cons.mpr ⟨?_, ih⟩
    intro x hx
    rcases List.mem_cons.mp hx with rfl | hx
    · exact h.1
    · exact le_trans h.1 (List.rel_of_sorted_cons ih x hx)

/-- The slice that the compaction loop of `uniq` runs over is ascending and a
rearrangement of the argument. -/
theorem uniq_input_sorted (a : List String) :
    (if StringsAreSorted a then a else Strings a).Sorted (fun x y => x.data ≤ y.data) ∧
    (if StringsAreSorted a then a else Strings a).Perm a := by
  by_cases h : StringsAreSorted a = true
  · rw [if_pos h]; exact ⟨sorted_of_StringsAreSorted a h, List.Perm.refl _⟩
  · rw [if_neg h]
    haveI : IsTotal String (fun x y => x.data ≤ y.data) := ⟨fun x y => le_total x.data y.data⟩
    haveI : IsTrans String (fun x y => x.data ≤ y.data) :=
      ⟨fun x y z hxy hyz => le_trans hxy hyz⟩
    exact ⟨List.sorted_insertionSort _ a, List.perm_insertionSort _ a⟩

theorem kept_sorted (s : String) (l : List String)
    (hs : l.Sorted (fun x y => x.data ≤ y.data)) (hle : ∀ x ∈ l, s.data ≤ x.data) :
    (kept s l).Pairwise (fun x y => x.data < y.data) ∧ ∀ x ∈ kept s l, s.data < x.data := by
  induction l generalizing s with
  | nil => simp [kept]
  | cons t ts ih =>
    have hts := List.sorted_cons.mp hs
    by_cases h : t = s
    · subst h
      simp only [kept, ne_eq, not_true_eq_false, ite_false]
      exact ih t hts.2 hts.1
    · simp only [kept, ne_eq, h, not_false_eq_true, ite_true]
      have hst : s.data < t.data :=
        lt_of_le_of_ne (hle t (List.mem_cons_self _ _)) (fun e => h (data_injective e).symm)
      obtain ⟨ih1, ih2⟩ := ih t hts.2 hts.1
      refine ⟨List.pairwise_cons.mpr ⟨ih2, ih1⟩, ?_⟩
      intro x hx
      rcases List.mem_cons.mp hx with rfl | hx
      · exact hst
      · exact lt_trans hst (ih2 x hx)

theorem mem_kept (s : String) (l : List String)
    (hs : l.Sorted (fun x y => x.data ≤ y.data)) (hle : ∀ x ∈ l, s.data ≤ x.data) (x : String) :
    x ∈ kept s l ↔ x ∈ l ∧ x ≠ s := by
  induction l generalizing s with
  | nil => simp [kept]
  | cons t ts ih =>
    have hts := List.sorted_cons.mp hs
    by_cases h : t = s
    · subst h
      simp only [kept, ne_eq, not_true_eq_false, ite_false, List.mem_cons]
      rw [ih t hts.2 hts.1]
      constructor
      · rintro ⟨h1, h2⟩; exact ⟨Or.inr h1, h2⟩
      · rintro ⟨h1 | h1, h2⟩
        · exact absurd h1 h2
        · exact ⟨h1, h2⟩
    · simp only [kept, ne_eq, h, not_false_eq_true, ite_true, List.mem_cons]
      rw [ih t hts.2 hts.1]
      have hst : s.data < t.data :=
        lt_of_le_of_ne (hle t (List.mem_cons_self _ _)) (fun e => h (data_injective e).symm)
      constructor
      · rintro (rfl | ⟨h1, _⟩)
        · exact ⟨Or.inl rfl, h⟩
        · refine ⟨Or.inr h1, ?_⟩
          rintro rfl
          exact absurd (lt_of_lt_of_le hst (hts.1 x h1)) (lt_irrefl _)
      · rintro ⟨h1 | h1, _⟩
        · exact Or.inl h1
        · by_cases hxt : x = t
          · exact Or.inl hxt
          · exact Or.inr ⟨h1, hxt⟩

/-- What `uniq` keeps: the non-empty strings of its argument. -/
theorem mem_uniq_iff (a : List String) (x : String) : x ∈ uniq a ↔ x ∈ a ∧ x ≠ "" := by
  rw [uniq_eq_kept]
  obtain ⟨hs, hp⟩ := uniq_input_sorted a
  rw [mem_kept "" _ hs (fun y _ => empty_data_le y), hp.mem_iff]

/-! ## Claims about `uniq` -/

/-- C1: for every list of strings `a`, `uniq a` is in strictly ascending order,
hence contains no string twice. -/
theorem uniq_strictly_ascending (a : List String) :
    (uniq a).Pairwise (fun x y => Less x y = true) ∧ (uniq a).Nodup := by
  rw [uniq_eq_kept]
  obtain ⟨hs, _⟩ := uniq_input_sorted a
  have h := (kept_sorted "" _ hs (fun y _ => empty_data_le y)).1
  refine ⟨h.imp (fun {x y} hxy => (less_iff x y).mpr hxy), ?_⟩
  exact h.imp (by
    intro x y hxy e
    subst e
    exact lt_irrefl _ hxy)

/-- C2 (counterexample): the empty string occurs in the list `[""]` but not in
`uniq [""]`, which is empty; so it does not hold that a string occurs in
`uniq a` exactly when it occurs in `a`. -/
theorem uniq_drops_empty_string :
    "" ∈ [""] ∧ uniq [""] = [] ∧ uniq ["b", "", "a"] = ["a", "b"] := by
  decide

/-! ## `fillPackage` -/

/-- The loop over the files, when every file parses and every import literal
of a file that is not ignored unquotes: it ends without error, and the file
names and the unquoted imports are distributed by `testFile`. -/
theorem fileLoop_ok (env : Env) (parsed : String → File) (names : String → List String)
    (files : List String)
    (hp : ∀ f ∈ files, env.ParseFile f = .ok (parsed f))
    (hu : ∀ f ∈ files, ignoredByTags env.ignoreTags (parsed f) = false →
      unquoteAll env (parsed f).Imports = .ok (names f))
    (st : FillState) :
    ∃ st', fileLoop env files st = .ok st' ∧
      st'.p.GoFiles = st.p.GoFiles ++
        (files.filter fun f =>
          !ignoredByTags env.ignoreTags (parsed f) && !HasSuffix f "_test.go").map Base ∧
      st'.p.TestGoFiles = st.p.TestGoFiles ++
        (files.filter fun f =>
          !ignoredByTags env.ignoreTags (parsed f) && HasSuffix f "_test.go").map Base ∧
      st'.p.IgnoredGoFiles = st.p.IgnoredGoFiles ++
        (files.filter fun f => ignoredByTags env.ignoreTags (parsed f)).map Base ∧
      st'.imports = st.imports ++
        ((files.filter fun f =>
          !ignoredByTags env.ignoreTags (parsed f) && !HasSuffix f "_test.go").map names).flatten ∧
      st'.testImports = st.testImports ++
        ((files.filter fun f =>
          !ignoredByTags env.ignoreTags (parsed f) && HasSuffix f "_test.go").map names).flatten := by
  induction files generalizing st with
  | nil => exact ⟨st, rfl, by simp, by simp, by simp, by simp, by simp⟩
  | cons f fs ih =>
    have hpf := hp f (List.mem_cons_self _ _)
    have ih' := ih (fun g hg => hp g (List.mem_cons_of_mem _ hg))
      (fun g hg => hu g (List.mem_cons_of_mem _ hg))
    unfold fileLoop
    rw [hpf]
    simp only
    by_cases hig : ignoredByTags env.ignoreTags (parsed f) = true
    · rw [if_pos hig]
      obtain ⟨st', h0, h1, h2, h3, h4, h5⟩ := ih' _
      refine ⟨st', h0, ?_, ?_, ?_, ?_, ?_⟩
      · rw [h1]; simp [hig]
      · rw [h2]; simp [hig]
      · rw [h3]; simp [hig]
      · rw [h4]; simp [hig]
      · rw [h5]; simp [hig]
    · rw [if_neg hig]
      have hig' : ignoredByTags env.ignoreTags (parsed f) = false := by simpa using hig
      rw [hu f (List.mem_cons_self _ _) hig']
      simp only
      by_cases ht : HasSuffix f "_test.go" = true
      · simp only [ht, if_true]
        obtain ⟨st', h0, h1, h2, h3, h4, h5⟩ := ih' _
        refine ⟨st', h0, ?_, ?_, ?_, ?_, ?_⟩
        · rw [h1]; simp [ht]
        · rw [h2]; simp [hig', ht]
        · rw [h3]; simp [hig']
        · rw [h4]; simp [ht]
        · rw [h5]; simp [hig', ht]
      · have ht' : HasSuffix f "_test.go" = false := by simpa using ht
        simp only [ht', Bool.false_eq_true, if_false]
        obtain ⟨st', h0, h1, h2, h3, h4, h5⟩ := ih' _
        refine ⟨st', h0, ?_, ?_, ?_, ?_, ?_⟩
        · rw [h1]; simp [hig', ht']
        · rw [h2]; simp [ht']
        · rw [h3]; simp [hig']
        · rw [h4]; simp [hig', ht']
        · rw [h5]; simp [ht']

theorem findSrcRoot_frame (srcDirs : List String) (p : Package) :
    (findSrcRoot srcDirs p).GoFiles = p.GoFiles ∧
    (findSrcRoot srcDirs p).TestGoFiles = p.TestGoFiles ∧
    (findSrcRoot srcDirs p).IgnoredGoFiles = p.IgnoredGoFiles ∧
    (findSrcRoot srcDirs p).Dir = p.Dir := by
  unfold findSrcRoot
  induction srcDirs generalizing p with
  | nil => exact ⟨rfl, rfl, rfl, rfl⟩
  | cons b bs ih =>
    simp only [List.foldl_cons]
    by_cases h : HasPrefix p.Dir b = true
    · rw [if_pos h]; exact ih _
    · rw [if_neg h]; exact ih _

/-- The two blocks that set `SrcRoot` and `Root` leave the file lists and `Dir`
as they are. -/
theorem setRoot_setSrcRoot_frame (env : Env) (p : Package) :
    (setRoot (setSrcRoot env p)).GoFiles = p.GoFiles ∧
    (setRoot (setSrcRoot env p)).TestGoFiles = p.TestGoFiles ∧
    (setRoot (setSrcRoot env p)).IgnoredGoFiles = p.IgnoredGoFiles ∧
    (setRoot (setSrcRoot env p)).Dir = p.Dir := by
  have h1 : (setSrcRoot env p).GoFiles = p.GoFiles ∧
      (setSrcRoot env p).TestGoFiles = p.TestGoFiles ∧
      (setSrcRoot env p).IgnoredGoFiles = p.IgnoredGoFiles ∧
      (setSrcRoot env p).Dir = p.Dir := by
    unfold setSrcRoot
    by_cases h : p.SrcRoot = ""
    · rw [if_pos h]; exact findSrcRoot_frame _ _
    · rw [if_neg h]; exact ⟨rfl, rfl, rfl, rfl⟩
  have h2 : ∀ q : Package, (setRoot q).GoFiles = q.GoFiles ∧
      (setRoot q).TestGoFiles = q.TestGoFiles ∧
      (setRoot q).IgnoredGoFiles = q.IgnoredGoFiles ∧ (setRoot q).Dir = q.Dir := by
    intro q
    unfold setRoot
    split <;> exact ⟨rfl, rfl, rfl, rfl⟩
  obtain ⟨a1, a2, a3, a4⟩ := h2 (setSrcRoot env p)
  obtain ⟨b1, b2, b3, b4⟩ := h1
  exact ⟨a1.trans b1, a2.trans b2, a3.trans b3, a4.trans b4⟩

/-- When the source root is found, the directory lists Go files and the loop
over them ends in the state `st`, `fillPackage` returns no error and the
package of `st` with `Imports` and `TestImports` set to `uniq` of the two
collected slices. -/
theorem fillPackage_of_fileLoop (env : Env) (p : Package) (gofiles : List String)
    (st : FillState)
    (hroot : p.Goroot = false)
    (hsrc : (setSrcRoot env p).SrcRoot ≠ "")
    (hglob : env.Glob (Join p.Dir "*.go") = .ok gofiles)
    (hne : gofiles ≠ [])
    (hloop : fileLoop env gofiles
      { p := setRoot (setSrcRoot env p), imports := [], testImports := [] } = .ok st) :
    fillPackage env p =
      (none, { st.p with Imports := uniq st.imports, TestImports := uniq st.testImports }) := by
  have hlen : ¬ gofiles.length = 0 := fun h => hne (List.length_eq_zero.mp h)
  have hdir := (setRoot_setSrcRoot_frame env p).2.2.2
  unfold fillPackage
  rw [if_neg (by simp [hroot])]
  simp only
  rw [if_neg hsrc, hdir, hglob]
  simp only
  rw [if_neg hlen, hloop]

/-- C5: for a package outside GOROOT whose source root is found and whose
directory has Go files that all parse, with import literals that all unquote,
`fillPackage` returns no error.  The base name of a file that is not ignored is
appended to `TestGoFiles`, and its unquoted imports are collected for
`TestImports`, exactly when the file name ends in `_test.go`; otherwise the
base name is appended to `GoFiles` and the imports are collected for
`Imports`.  `Imports` is `uniq` of the unquoted import literals of the non-test
files and `TestImports` is `uniq` of those of the test files. -/
theorem fillPackage_splits_test_files (env : Env) (p : Package) (gofiles : List String)
    (parsed : String → File) (unq : String → String)
    (hroot : p.Goroot = false)
    (hsrc : (setSrcRoot env p).SrcRoot ≠ "")
    (hglob : env.Glob (Join p.Dir "*.go") = .ok gofiles)
    (hne : gofiles ≠ [])
    (hparse : ∀ f ∈ gofiles, env.ParseFile f = .ok (parsed f))
    (hunq : ∀ f ∈ gofiles, ignoredByTags env.ignoreTags (parsed f) = false →
      ∀ lit ∈ (parsed f).Imports, env.Unquote lit = .ok (unq lit)) :
    (fillPackage env p).1 = none ∧
    (fillPackage env p).2.GoFiles = p.GoFiles ++
      (gofiles.filter fun f =>
        !ignoredByTags env.ignoreTags (parsed f) && !HasSuffix f "_test.go").map Base ∧
    (fillPackage env p).2.TestGoFiles = p.TestGoFiles ++
      (gofiles.filter fun f =>
        !ignoredByTags env.ignoreTags (parsed f) && HasSuffix f "_test.go").map Base ∧
    (fillPackage env p).2.IgnoredGoFiles = p.IgnoredGoFiles ++
      (gofiles.filter fun f => ignoredByTags env.ignoreTags (parsed f)).map Base ∧
    (fillPackage env p).2.Imports =
      uniq ((gofiles.filter fun f =>
        !ignoredByTags env.ignoreTags (parsed f) && !HasSuffix f "_test.go").map
          fun f => (parsed f).Imports.map unq).flatten ∧
    (fillPackage env p).2.TestImports =
      uniq ((gofiles.filter fun f =>
        !ignoredByTags env.ignoreTags (parsed f) && HasSuffix f "_test.go").map
          fun f => (parsed f).Imports.map unq).flatten := by
  -- the loop over the import literals of a file yields the unquoted paths in order
  have hall : ∀ lits : List String, (∀ lit ∈ lits, env.Unquote lit = .ok (unq lit)) →
      unquoteAll env lits = .ok (lits.map unq) := by
    intro lits
    induction lits with
    | nil => intro _; rfl
    | cons lit rest ih =>
      intro h
      unfold unquoteAll
      rw [h lit (List.mem_cons_self _ _), ih (fun l hl => h l (List.mem_cons_of_mem _ hl))]
      rfl
  obtain ⟨f1, f2, f3, _⟩ := setRoot_setSrcRoot_frame env p
  obtain ⟨st, h0, h1, h2, h3, h4, h5⟩ := fileLoop_ok env parsed
    (fun f => (parsed f).Imports.map unq) gofiles hparse
    (fun f hf hig => hall _ (hunq f hf hig))
    { p := setRoot (setSrcRoot env p), imports := [], testImports := [] }
  rw [fillPackage_of_fileLoop env p gofiles st hroot hsrc hglob hne h0]
  simp only [List.nil_append] at h4 h5
  refine ⟨rfl, ?_, ?_, ?_, ?_, ?_⟩
  · show st.p.GoFiles = _
    rw [h1, f1]
  · show st.p.TestGoFiles = _
    rw [h2, f2]
  · show st.p.IgnoredGoFiles = _
    rw [h3, f3]
  · show uniq st.imports = _
    rw [h4]
  · show uniq st.testImports = _
    rw [h5]

/-- C6: for a package with `Goroot` set, `fillPackage` returns no error and
leaves the package as it was. -/
theorem fillPackage_goroot (env : Env) (p : Package) (h : p.Goroot = true) :
    fillPackage env p = (none, p) := by
  unfold fillPackage
  rw [if_pos h]

/-- With the value `[]string{}` that the source gives to `ignoreTags`, no file
is ignored. -/
theorem ignoredByTags_nil (pf : File) : ignoredByTags [] pf = false := by
  unfold ignoredByTags
  rw [List.any_eq_false]
  intro c _
  by_cases h : c.Pos > pf.Package
  · simp [h]
  · simp only [h, if_false]
    cases afterFirst buildMatch.data c.Text.data with
    | none => simp
    | some rest => simp

/-- C2 (as the code does it): `uniq a` has no duplicate and holds exactly the
strings of `a` other than the empty string; and every non-empty import path
that `fillPackage` unquotes from a file that is not ignored is in the
`TestImports` it reports when the file name ends in `_test.go`, and in the
`Imports` it reports otherwise. -/
theorem uniq_keeps_nonempty_strings :
    (∀ (a : List String), (uniq a).Nodup ∧ ∀ x, x ∈ uniq a ↔ x ∈ a ∧ x ≠ "") ∧
    (∀ (env : Env) (p : Package) (gofiles : List String) (parsed : String → File)
      (unq : String → String),
      p.Goroot = false → (setSrcRoot env p).SrcRoot ≠ "" →
      env.Glob (Join p.Dir "*.go") = .ok gofiles →
      (∀ f ∈ gofiles, env.ParseFile f = .ok (parsed f)) →
      (∀ f ∈ gofiles, ignoredByTags env.ignoreTags (parsed f) = false →
        ∀ lit ∈ (parsed f).Imports, env.Unquote lit = .ok (unq lit)) →
      ∀ f ∈ gofiles, ignoredByTags env.ignoreTags (parsed f) = false →
        ∀ lit ∈ (parsed f).Imports, unq lit ≠ "" →
          (HasSuffix f "_test.go" = true → unq lit ∈ (fillPackage env p).2.TestImports) ∧
          (HasSuffix f "_test.go" = false → unq lit ∈ (fillPackage env p).2.Imports)) := by
  refine ⟨fun a => ⟨?_, mem_uniq_iff a⟩, ?_⟩
  · rw [uniq_eq_kept]
    obtain ⟨hs, _⟩ := uniq_input_sorted a
    refine (kept_sorted "" _ hs (fun y _ => empty_data_le y)).1.imp ?_
    intro x y hxy e
    subst e
    exact lt_irrefl _ hxy
  · intro env p gofiles parsed unq hroot hsrc hglob hparse hunq f hf hig lit hlit hne
    have hfiles : gofiles ≠ [] := List.ne_nil_of_mem hf
    have hall : ∀ lits : List String, (∀ l ∈ lits, env.Unquote l = .ok (unq l)) →
        unquoteAll env lits = .ok (lits.map unq) := by
      intro lits
      induction lits with
      | nil => intro _; rfl
      | cons l rest ih =>
        intro h
        unfold unquoteAll
        rw [h l (List.mem_cons_self _ _), ih (fun l' hl => h l' (List.mem_cons_of_mem _ hl))]
        rfl
    obtain ⟨st, h0, _, _, _, h4, h5⟩ := fileLoop_ok env parsed
      (fun f => (parsed f).Imports.map unq) gofiles hparse
      (fun g hg hig' => hall _ (hunq g hg hig'))
      { p := setRoot (setSrcRoot env p), imports := [], testImports := [] }
    rw [fillPackage_of_fileLoop env p gofiles st hroot hsrc hglob hfiles h0]
    simp only [List.nil_append] at h4 h5
    constructor
    · intro ht
      show unq lit ∈ uniq st.testImports
      rw [mem_uniq_iff, h5]
      refine ⟨?_, hne⟩
      simp only [List.mem_flatten, List.mem_map, List.mem_filter]
      exact ⟨(parsed f).Imports.map unq, ⟨f, ⟨hf, by simp [hig, ht]⟩, rfl⟩,
        List.mem_map.mpr ⟨lit, hlit, rfl⟩⟩
    · intro ht
      show unq lit ∈ uniq st.imports
      rw [mem_uniq_iff, h4]
      refine ⟨?_, hne⟩
      simp only [List.mem_flatten, List.mem_map, List.mem_filter]
      exact ⟨(parsed f).Imports.map unq, ⟨f, ⟨hf, by simp [hig, ht]⟩, rfl⟩,
        List.mem_map.mpr ⟨lit, hlit, rfl⟩⟩

/-! ## `ListPackages` -/

theorem foldl_pkgMap (pkgs : List tpkg) (m : String → Option String) (k : String) :
    pkgs.foldl (fun m pkg => fun k => if k = pkg.path then some pkg.path else m k) m k =
      if k ∈ pkgs.map tpkg.path then some k else m k := by
  induction pkgs generalizing m with
  | nil => simp
  | cons p ps ih =>
    simp only [List.foldl_cons, List.map_cons, List.mem_cons]
    rw [ih]
    by_cases h1 : k ∈ ps.map tpkg.path
    · simp [h1]
    · by_cases h2 : k = p.path
      · simp [h1, h2]
      · simp [h1, h2]

/-- The map returned by `ListPackages` for a depspec: exactly the package paths,
each mapped to itself. -/
theorem pkgMap_eq_some (pkgs : List tpkg) (x y : String) :
    pkgMap pkgs x = some y ↔ y = x ∧ ∃ p ∈ pkgs, p.path = x := by
  unfold pkgMap
  rw [foldl_pkgMap]
  by_cases h : x ∈ pkgs.map tpkg.path
  · rw [if_pos h]
    have h' := List.mem_map.mp h
    constructor
    · intro e
      exact ⟨(Option.some.inj e).symm, h'⟩
    · rintro ⟨e, _⟩
      rw [e]
  · rw [if_neg h]
    constructor
    · intro e; cases e
    · rintro ⟨_, p, hp, hpx⟩
      exact absurd (List.mem_map.mpr ⟨p, hp, hpx⟩) h

theorem listPackagesFrom_error_iff {V : Type} (Matches : V → V → Bool) (n : String) (v : V)
    (specs : List (depspec V)) (k0 : Nat) :
    listPackagesFrom Matches n v k0 specs = .error { n := n, v := v } ↔
      ∀ j ds, specs[j]? = some ds → selects Matches n v (k0 + j) ds = false := by
  induction specs generalizing k0 with
  | nil => simp [listPackagesFrom]
  | cons d rest ih =>
    unfold listPackagesFrom
    by_cases h : selects Matches n v k0 d = true
    · rw [if_pos h]
      constructor
      · intro e; cases e
      · intro hall
        have := hall 0 d (by simp)
        simp [h] at this
    · rw [if_neg h, ih]
      have h' : selects Matches n v k0 d = false := by simpa using h
      constructor
      · intro hall j ds hj
        cases j with
        | zero =>
          simp only [List.getElem?_cons_zero, Option.some.injEq] at hj
          subst hj; simpa using h'
        | succ j =>
          have := hall j ds (by simpa using hj)
          rwa [show k0 + (j + 1) = k0 + 1 + j by omega]
      · intro hall j ds hj
        have := hall (j + 1) ds (by simpa using hj)
        rwa [show k0 + (j + 1) = k0 + 1 + j by omega] at this

theorem listPackagesFrom_first {V : Type} (Matches : V → V → Bool) (n : String) (v : V)
    (specs : List (depspec V)) (k0 j : Nat) (ds : depspec V)
    (hj : specs[j]? = some ds) (hsel : selects Matches n v (k0 + j) ds = true)
    (hfirst : ∀ i ds', i < j → specs[i]? = some ds' → selects Matches n v (k0 + i) ds' = false) :
    listPackagesFrom Matches n v k0 specs = .ok (pkgMap ds.pkgs) := by
  induction specs generalizing k0 j with
  | nil => simp at hj
  | cons d rest ih =>
    unfold listPackagesFrom
    cases j with
    | zero =>
      simp only [List.getElem?_cons_zero, Option.some.injEq] at hj
      subst hj
      rw [if_pos (by simpa using hsel)]
    | succ j =>
      have h0 := hfirst 0 d (Nat.succ_pos _) (by simp)
      rw [if_neg (by simpa using h0)]
      refine ih (k0 + 1) j (by simpa using hj) ?_ ?_
      · rwa [show k0 + 1 + j = k0 + (j + 1) by omega]
      · intro i ds' hi hds'
        have := hfirst (i + 1) ds' (Nat.succ_lt_succ hi) (by simpa using hds')
        rwa [show k0 + 1 + i = k0 + (i + 1) by omega]

/-- C4: when the first depspec of the source manager has name `n`,
`ListPackages n v` returns, for every version `v` and whatever `Matches`
answers, the same map without error: the package paths of the first depspec,
each mapped to itself. -/
theorem ListPackages_root_ignores_version {V : Type} (Matches : V → V → Bool)
    (specs : List (depspec V)) (root : depspec V) (n : String)
    (hspecs : specs.head? = some root) (hn : root.n = n) :
    (∀ v, ListPackages Matches specs n v = .ok (pkgMap root.pkgs)) ∧
    (∀ x y, pkgMap root.pkgs x = some y ↔ y = x ∧ ∃ p ∈ root.pkgs, p.path = x) := by
  refine ⟨?_, pkgMap_eq_some root.pkgs⟩
  intro v
  cases specs with
  | nil => simp at hspecs
  | cons d rest =>
    simp only [List.head?_cons, Option.some.injEq] at hspecs
    subst hspecs
    unfold ListPackages listPackagesFrom
    rw [if_pos (by simp [selects, hn])]

/-- C10: `ListPackages n v` returns the not-found error exactly when no depspec
of `specs` has name `n` and is at index 0 or has a version matching `v`;
otherwise it returns without error the package paths, each mapped to itself, of
the first such depspec in list order. -/
theorem ListPackages_first_match {V : Type} (Matches : V → V → Bool)
    (specs : List (depspec V)) (n : String) (v : V) :
    (ListPackages Matches specs n v = .error { n := n, v := v } ↔
      ∀ k ds, specs[k]? = some ds → ¬ (n = ds.n ∧ (k = 0 ∨ Matches ds.v v = true))) ∧
    ((∃ e, ListPackages Matches specs n v = .error e) ↔
      ∀ k ds, specs[k]? = some ds → ¬ (n = ds.n ∧ (k = 0 ∨ Matches ds.v v = true))) ∧
    (∀ k ds, specs[k]? = some ds → (n = ds.n ∧ (k = 0 ∨ Matches ds.v v = true)) →
      (∀ j ds', j < k → specs[j]? = some ds' →
        ¬ (n = ds'.n ∧ (j = 0 ∨ Matches ds'.v v = true))) →
      ListPackages Matches specs n v = .ok (pkgMap ds.pkgs) ∧
      ∀ x y, pkgMap ds.pkgs x = some y ↔ y = x ∧ ∃ p ∈ ds.pkgs, p.path = x) := by
  have hsel : ∀ k (ds : depspec V),
      selects Matches n v k ds = true ↔ (n = ds.n ∧ (k = 0 ∨ Matches ds.v v = true)) := by
    intro k ds; simp [selects]
  have herr : ListPackages Matches specs n v = .error { n := n, v := v } ↔
      ∀ k ds, specs[k]? = some ds → ¬ (n = ds.n ∧ (k = 0 ∨ Matches ds.v v = true)) := by
    unfold ListPackages
    rw [listPackagesFrom_error_iff]
    constructor
    · intro h k ds hk hc
      have := h k ds hk
      rw [Nat.zero_add] at this
      rw [(hsel k ds).mpr hc] at this
      cases this
    · intro h k ds hk
      rw [Nat.zero_add]
      have := h k ds hk
      rw [← hsel] at this
      simpa using this
  have hok : ∀ k ds, specs[k]? = some ds → (n = ds.n ∧ (k = 0 ∨ Matches ds.v v = true)) →
      (∀ j ds', j < k → specs[j]? = some ds' →
        ¬ (n = ds'.n ∧ (j = 0 ∨ Matches ds'.v v = true))) →
      ListPackages Matches specs n v = .ok (pkgMap ds.pkgs) := by
    intro k ds hk hc hfirst
    unfold ListPackages
    refine listPackagesFrom_first Matches n v specs 0 k ds hk ?_ ?_
    · rw [Nat.zero_add]; exact (hsel k ds).mpr hc
    · intro i ds' hi hds'
      rw [Nat.zero_add]
      have := hfirst i ds' hi hds'
      rw [← hsel] at this
      simpa using this
  refine ⟨herr, ?_, fun k ds hk hc hfirst => ⟨hok k ds hk hc hfirst, pkgMap_eq_some ds.pkgs⟩⟩
  constructor
  · rintro ⟨e, he⟩
    by_contra hex
    push_neg at hex
    -- some depspec is selected; take the first one
    have hfind : ∃ k ds, specs[k]? = some ds ∧ selects Matches n v k ds = true ∧
        ∀ j ds', j < k → specs[j]? = some ds' → selects Matches n v j ds' = false := by
      obtain ⟨k, ds, hk, hc⟩ := hex
      have hP : ∃ k, ∃ ds, specs[k]? = some ds ∧ selects Matches n v k ds = true :=
        ⟨k, ds, hk, (hsel k ds).mpr hc⟩
      classical
      refine ⟨Nat.find hP, ?_⟩
      obtain ⟨ds0, h1, h2⟩ := Nat.find_spec hP
      refine ⟨ds0, h1, h2, ?_⟩
      intro j ds' hj hds'
      have := Nat.find_min hP hj
      by_contra hc'
      exact this ⟨ds', hds', by simpa using hc'⟩
    obtain ⟨k, ds, hk, hc, hfirst⟩ := hfind
    have := hok k ds hk ((hsel k ds).mp hc) (fun j ds' hj hds' hcj => by
      have := hfirst j ds' hj hds'
      rw [(hsel j ds').mpr hcj] at this
      cases this)
    rw [this] at he
    cases he
  · intro h
    exact ⟨_, herr.mpr h⟩

/-! ## Fixtures -/

/-- C7 (as recorded in the source): the fixture
"constraints activated by import" is built from the depspecs root 0.0.0
(constraint `b 1.0.0`, packages `root` importing `root/foo` and
`root/foo` importing `a`), a 1.0.0 (package `a` with the import `b`),
b 1.0.0 and b 1.1.0; its expected result maps `a` to 1.0.0 and
`b` to 1.1.0, and nothing else. -/
theorem fixture_constraints_activated_by_import :
    ∃ f, fixtureNamed "constraints activated by import" = some f ∧
      f.ds =
        [ { n := "root", v := "0.0.0", deps := [("b", "1.0.0")],
            pkgs := [⟨"root", ["root/foo"]⟩, ⟨"root/foo", ["a"]⟩] },
          { n := "a", v := "1.0.0", deps := [], pkgs := [⟨"a", ["b"]⟩] },
          { n := "b", v := "1.0.0", deps := [], pkgs := [⟨"b", []⟩] },
          { n := "b", v := "1.1.0", deps := [], pkgs := [⟨"b", []⟩] } ] ∧
      f.r "a" = some "1.0.0" ∧ f.r "b" = some "1.1.0" ∧
      ∀ k, k ≠ "a" → k ≠ "b" → f.r k = none := by
  refine ⟨_, rfl, by decide, by decide, by decide, ?_⟩
  intro k ha hb
  show mkresults ["a 1.0.0", "b 1.1.0"] k = none
  have e1 : (nsvSplit "a 1.0.0").1 = "a" := by decide
  have e2 : (nsvSplit "b 1.1.0").1 = "b" := by decide
  simp [mkresults, e1, e2, ha, hb]

/-- C7 (counterexample): the expected result of the fixture "constraints
activated by import" does not map `b` to 1.0.0. -/
theorem fixture_constraints_activated_b_not_1_0_0 :
    (fixtureNamed "constraints activated by import").bind (fun f => f.r "b") ≠ some "1.0.0" := by
  decide

/-! ## `computeBimodalExternalMap`: package validation -/

theorem pkgStep_ok_iff (n : String) (workmap : Workmap) (p : tpkg) :
    (∃ w, pkgStep n workmap p = .ok w) ↔ HasPrefix (Clean p.path) n = true := by
  unfold pkgStep
  by_cases h : HasPrefix (Clean p.path) n = true
  · simp [h]
  · have h' : HasPrefix (Clean p.path) n = false := by simpa using h
    simp [h']

theorem pkgLoop_ok_of_valid (n : String) (pkgs : List tpkg) (workmap : Workmap)
    (h : ∀ p ∈ pkgs, HasPrefix (Clean p.path) n = true) :
    ∃ w, pkgLoop n pkgs workmap = .ok w := by
  induction pkgs generalizing workmap with
  | nil => exact ⟨workmap, rfl⟩
  | cons p ps ih =>
    obtain ⟨w1, hw1⟩ := (pkgStep_ok_iff n workmap p).mpr (h p (List.mem_cons_self _ _))
    unfold pkgLoop
    rw [hw1]
    exact ih w1 (fun q hq => h q (List.mem_cons_of_mem _ hq))

theorem pkgLoop_error (n : String) (pkgs : List tpkg) (workmap : Workmap) (e : Panic)
    (h : pkgLoop n pkgs workmap = .error e) :
    ∃ p ∈ pkgs, HasPrefix (Clean p.path) n = false ∧ e = .notChild p.path n := by
  induction pkgs generalizing workmap with
  | nil => simp [pkgLoop] at h
  | cons p ps ih =>
    unfold pkgLoop at h
    by_cases hv : HasPrefix (Clean p.path) n = true
    · obtain ⟨w1, hw1⟩ := (pkgStep_ok_iff n workmap p).mpr hv
      rw [hw1] at h
      obtain ⟨q, hq, hbad⟩ := ih w1 h
      exact ⟨q, List.mem_cons_of_mem _ hq, hbad⟩
    · have hv' : HasPrefix (Clean p.path) n = false := by simpa using hv
      refine ⟨p, List.mem_cons_self _ _, hv', ?_⟩
      simp only [pkgStep, hv', Bool.not_false, if_true] at h
      cases h
      rfl

theorem pkgLoop_error_of_invalid (n : String) (pkgs : List tpkg) (workmap : Workmap)
    (h : ∃ p ∈ pkgs, HasPrefix (Clean p.path) n = false) :
    ∃ q, pkgLoop n pkgs workmap = .error (.notChild q n) := by
  by_contra hcon
  have hvalid : ∀ e, pkgLoop n pkgs workmap ≠ .error e := by
    intro e he
    obtain ⟨p, _, _, rfl⟩ := pkgLoop_error n pkgs workmap e he
    exact hcon ⟨_, he⟩
  obtain ⟨p, hp, hbad⟩ := h
  -- a loop that does not fail passes the test for every package
  have hall : ∀ (l : List tpkg) (w : Workmap), (∀ e, pkgLoop n l w ≠ .error e) →
      ∀ q ∈ l, HasPrefix (Clean q.path) n = true := by
    intro l
    induction l with
    | nil => intro _ _ q hq; cases hq
    | cons a as ih =>
      intro w hw q hq
      have ha : HasPrefix (Clean a.path) n = true := by
        by_contra hna
        have hna' : HasPrefix (Clean a.path) n = false := by simpa using hna
        exact hw (.notChild a.path n) (by simp [pkgLoop, pkgStep, hna'])
      rcases List.mem_cons.mp hq with rfl | hq
      · exact ha
      · obtain ⟨w1, hw1⟩ := (pkgStep_ok_iff n w a).mpr ha
        refine ih w1 (fun e he => hw e ?_) q hq
        unfold pkgLoop
        rw [hw1]
        exact he
  have := hall pkgs workmap hvalid p hp
  rw [hbad] at this
  cases this

theorem pkgLoop_keys (n : String) (pkgs : List tpkg) (workmap w : Workmap)
    (h : pkgLoop n pkgs workmap = .ok w) (k : String) :
    (∃ x, w k = some x) ↔ (∃ x, workmap k = some x) ∨ k ∈ pkgs.map tpkg.path := by
  induction pkgs generalizing workmap with
  | nil =>
    simp only [pkgLoop, Except.ok.injEq] at h
    subst h
    simp
  | cons p ps ih =>
    unfold pkgLoop at h
    by_cases hv : HasPrefix (Clean p.path) n = true
    · simp only [pkgStep, hv, Bool.not_true, Bool.false_eq_true, if_false] at h
      rw [ih _ h]
      by_cases hk : k = p.path
      · simp [hk]
      · simp only [hk, if_false, List.map_cons, List.mem_cons, false_or]
    · have hv' : HasPrefix (Clean p.path) n = false := by simpa using hv
      simp [pkgStep, hv'] at h

theorem computeFrom_notChild {V : Type} (wmToReach : Workmap → String → Except Error ReachMap)
    (ds : List (depspec V)) (rm : List (pident V × ReachMap)) (q n : String)
    (h : computeFrom wmToReach ds rm = .error (.notChild q n)) :
    ∃ d ∈ ds, ∃ p ∈ d.pkgs, HasPrefix (Clean p.path) d.n = false := by
  induction ds generalizing rm with
  | nil => simp [computeFrom] at h
  | cons d rest ih =>
    unfold computeFrom at h
    cases hb : buildWorkmap d with
    | error e =>
      obtain ⟨p, hp, hbad, _⟩ := pkgLoop_error d.n d.pkgs _ e hb
      exact ⟨d, List.mem_cons_self _ _, p, hp, hbad⟩
    | ok workmap =>
      rw [hb] at h
      simp only at h
      cases hr : wmToReach workmap "" with
      | error err => rw [hr] at h; simp at h
      | ok drm =>
        rw [hr] at h
        obtain ⟨d', hd', hrest⟩ := ih _ h
        exact ⟨d', List.mem_cons_of_mem _ hd', hrest⟩

theorem computeFrom_invalid {V : Type} (wmToReach : Workmap → String → Except Error ReachMap)
    (hreach : ∀ w, ∃ drm, wmToReach w "" = .ok drm)
    (ds : List (depspec V)) (rm : List (pident V × ReachMap))
    (h : ∃ d ∈ ds, ∃ p ∈ d.pkgs, HasPrefix (Clean p.path) d.n = false) :
    ∃ q n, computeFrom wmToReach ds rm = .error (.notChild q n) := by
  induction ds generalizing rm with
  | nil => obtain ⟨d, hd, _⟩ := h; cases hd
  | cons d rest ih =>
    unfold computeFrom
    by_cases hbad : ∃ p ∈ d.pkgs, HasPrefix (Clean p.path) d.n = false
    · obtain ⟨q, hq⟩ := pkgLoop_error_of_invalid d.n d.pkgs (fun _ => none) hbad
      refine ⟨q, d.n, ?_⟩
      have hq' : buildWorkmap d = .error (.notChild q d.n) := hq
      rw [hq']
    · have hvalid : ∀ p ∈ d.pkgs, HasPrefix (Clean p.path) d.n = true := by
        intro p hp
        by_contra hc
        exact hbad ⟨p, hp, by simpa using hc⟩
      obtain ⟨w, hw⟩ := pkgLoop_ok_of_valid d.n d.pkgs (fun _ => none) hvalid
      have hw' : buildWorkmap d = .ok w := hw
      obtain ⟨drm, hdrm⟩ := hreach w
      rw [hw']
      simp only
      rw [hdrm]
      apply ih
      obtain ⟨d', hd', hrest⟩ := h
      rcases List.mem_cons.mp hd' with rfl | hd'
      · exact absurd hrest hbad
      · exact ⟨d', hd', hrest⟩

/-- C8 (as the code does it): for any `wmToReach` that reports no error,
`computeBimodalExternalMap` raises the package-validation panic exactly when
some depspec has a package whose cleaned path does not begin with the project
name; the workmap-building pass of a depspec panics exactly when that depspec
has such a package; and when the cleaned path of every package begins with the
project name, the pass completes and the workmap has an entry for every
package path. -/
theorem computeBimodalExternalMap_validates {V : Type}
    (wmToReach : Workmap → String → Except Error ReachMap)
    (hreach : ∀ w, ∃ drm, wmToReach w "" = .ok drm) (ds : List (depspec V)) :
    ((∃ q n, computeBimodalExternalMap wmToReach ds = .error (.notChild q n)) ↔
      ∃ d ∈ ds, ∃ p ∈ d.pkgs, HasPrefix (Clean p.path) d.n = false) ∧
    (∀ d ∈ ds, (∃ e, buildWorkmap d = .error e) ↔
      ∃ p ∈ d.pkgs, HasPrefix (Clean p.path) d.n = false) ∧
    (∀ d ∈ ds, (∀ p ∈ d.pkgs, HasPrefix (Clean p.path) d.n = true) →
      ∃ workmap, buildWorkmap d = .ok workmap ∧ ∀ p ∈ d.pkgs, ∃ w, workmap p.path = some w) := by
  refine ⟨⟨?_, ?_⟩, ?_, ?_⟩
  · rintro ⟨q, n, h⟩
    exact computeFrom_notChild wmToReach ds [] q n h
  · intro h
    exact computeFrom_invalid wmToReach hreach ds [] h
  · intro d _
    constructor
    · rintro ⟨e, he⟩
      obtain ⟨p, hp, hbad, _⟩ := pkgLoop_error d.n d.pkgs _ e he
      exact ⟨p, hp, hbad⟩
    · intro h
      obtain ⟨q, hq⟩ := pkgLoop_error_of_invalid d.n d.pkgs (fun _ => none) h
      exact ⟨_, hq⟩
  · intro d _ hvalid
    obtain ⟨w, hw⟩ := pkgLoop_ok_of_valid d.n d.pkgs (fun _ => none) hvalid
    refine ⟨w, hw, ?_⟩
    intro p hp
    exact (pkgLoop_keys d.n d.pkgs _ w hw p.path).mpr (Or.inr (List.mem_map.mpr ⟨p, hp, rfl⟩))

/-- C8 (counterexample): in the project `foo`, the package path `foo/../bar`
begins with the project name, yet the workmap-building pass panics, because the
cleaned path `bar` does not. -/
theorem computeBimodalExternalMap_checks_cleaned_path :
    (∀ p ∈ (dsp (dsv "foo 1.0.0" []) [pkg "foo/../bar" []]).pkgs,
      HasPrefix p.path (dsp (dsv "foo 1.0.0" []) [pkg "foo/../bar" []]).n = true) ∧
    buildWorkmap (dsp (dsv "foo 1.0.0" []) [pkg "foo/../bar" []]) =
      .error (.notChild "foo/../bar" "foo") ∧
    ∀ wmToReach : Workmap → String → Except Error ReachMap,
      computeBimodalExternalMap wmToReach [dsp (dsv "foo 1.0.0" []) [pkg "foo/../bar" []]] =
        .error (.notChild "foo/../bar" "foo") :=
  ⟨by decide, rfl, fun _ => rfl⟩

/-! ## `computeBimodalExternalMap`: internal and external imports -/

/-- What the code treats as internal: an import whose cleaned path has the
project name as a plain string prefix is not put in `ex`; it is dereferenced
when seen and deferred in `in` otherwise.  Any other import is put in `ex`. -/
theorem impStep_cases (n : String) (workmap : Workmap) (w : wm) (imp : String) :
    (HasPrefix (Clean imp) n = false →
      impStep n workmap w imp = { w with ex := insert imp w.ex }) ∧
    (HasPrefix (Clean imp) n = true → ∀ w2, workmap imp = some w2 →
      impStep n workmap w imp = { ex := w.ex ∪ w2.ex, in_ := w.in_ ∪ w2.in_ }) ∧
    (HasPrefix (Clean imp) n = true → workmap imp = none →
      impStep n workmap w imp = { w with in_ := insert imp w.in_ }) := by
  refine ⟨?_, ?_, ?_⟩
  · intro h; simp [impStep, h]
  · intro h w2 hw2; simp [impStep, h, hw2]
  · intro h hw; simp [impStep, h, hw]

/-- C3 (failing input): in the project `foo`, the import `foobar` of the
package `foo` has a cleaned path that neither equals `foo` nor begins with
`foo/`, yet it is not recorded in the external set of the package: the entry
of `foo` has an empty `ex` and `foobar` in `in`. -/
theorem foobar_internal_to_foo :
    Clean "foobar" ≠ "foo" ∧ HasPrefix (Clean "foobar") "foo/" = false ∧
    ∃ workmap w, buildWorkmap (dsp (dsv "foo 1.0.0" []) [pkg "foo" ["foobar"]]) = .ok workmap ∧
      workmap "foo" = some w ∧ "foobar" ∉ w.ex ∧ w.ex = ∅ ∧ w.in_ = {"foobar"} :=
  ⟨by decide, by decide, _, _, rfl, rfl, by decide, by decide, by decide⟩

/-! ## `computeBimodalExternalMap`: the workmap and reach -/

/-- The reach relation satisfies the equation of the spec. -/
theorem reach_iff (n : String) (pkgs : List tpkg) (x e : String) :
    Reach n pkgs x e ↔
      ∃ p ∈ pkgs, p.path = x ∧
        ((e ∈ p.imports ∧ specInternal n e = false) ∨
         ∃ q ∈ p.imports, specInternal n q = true ∧ Reach n pkgs q e) := by
  constructor
  · intro h
    cases h with
    | direct p imp hp himp hext => exact ⟨p, hp, rfl, Or.inl ⟨himp, hext⟩⟩
    | step p q e hp hq hint hr => exact ⟨p, hp, rfl, Or.inr ⟨q, hq, hint, hr⟩⟩
  · rintro ⟨p, hp, rfl, h | ⟨q, hq, hint, hr⟩⟩
    · exact Reach.direct p e hp h.1 h.2
    · exact Reach.step p q e hp hq hint hr

/-- The reach relation is the least one closed under the equation of the
spec. -/
theorem reach_least (n : String) (pkgs : List tpkg) (R : String → String → Prop)
    (hdirect : ∀ p ∈ pkgs, ∀ imp ∈ p.imports, specInternal n imp = false → R p.path imp)
    (hstep : ∀ p ∈ pkgs, ∀ q ∈ p.imports, specInternal n q = true → ∀ e, R q e → R p.path e)
    (x e : String) (h : Reach n pkgs x e) : R x e := by
  induction h with
  | direct p imp hp himp hext => exact hdirect p hp imp himp hext
  | step p q e hp hq hint _ ih => exact hstep p hp q hq hint e ih

theorem path_injective (pkgs : List tpkg) (hd : (pkgs.map tpkg.path).Nodup)
    (p q : tpkg) (hp : p ∈ pkgs) (hq : q ∈ pkgs) (h : p.path = q.path) : p = q :=
  List.inj_on_of_nodup_map hd hp hq h

/-- The loop over the imports of a package `p`, against the reach relation.
Every entry already in the workmap is assumed sound and complete for its
path. -/
theorem impLoop_spec (n : String) (pkgs : List tpkg) (workmap : Workmap) (p : tpkg)
    (hp : p ∈ pkgs)
    (hag : ∀ imp ∈ p.imports, codeInternal n imp = specInternal n imp)
    (hwm : ∀ q w2, workmap q = some w2 →
      (∀ e ∈ w2.ex, Reach n pkgs q e) ∧
      (∀ r ∈ w2.in_, ∀ e, Reach n pkgs r e → Reach n pkgs q e) ∧
      (∀ e, Reach n pkgs q e → e ∈ w2.ex ∨ ∃ r ∈ w2.in_, Reach n pkgs r e))
    (l : List String) (hl : ∀ imp ∈ l, imp ∈ p.imports) (w0 : wm)
    (h2 : ∀ e ∈ w0.ex, Reach n pkgs p.path e)
    (h3 : ∀ r ∈ w0.in_, ∀ e, Reach n pkgs r e → Reach n pkgs p.path e) :
    w0.ex ⊆ (l.foldl (impStep n workmap) w0).ex ∧
    w0.in_ ⊆ (l.foldl (impStep n workmap) w0).in_ ∧
    (∀ e ∈ (l.foldl (impStep n workmap) w0).ex, Reach n pkgs p.path e) ∧
    (∀ r ∈ (l.foldl (impStep n workmap) w0).in_, ∀ e,
      Reach n pkgs r e → Reach n pkgs p.path e) ∧
    (∀ imp ∈ l, specInternal n imp = false → imp ∈ (l.foldl (impStep n workmap) w0).ex) ∧
    (∀ imp ∈ l, specInternal n imp = true → ∀ e, Reach n pkgs imp e →
      e ∈ (l.foldl (impStep n workmap) w0).ex ∨
      ∃ r ∈ (l.foldl (impStep n workmap) w0).in_, Reach n pkgs r e) := by
  induction l generalizing w0 with
  | nil =>
    refine ⟨Finset.Subset.refl _, Finset.Subset.refl _, h2, h3, ?_, ?_⟩
    · intro imp himp; cases himp
    · intro imp himp; cases himp
  | cons imp rest ih =>
    have himp : imp ∈ p.imports := hl imp (List.mem_cons_self _ _)
    have hrest : ∀ i ∈ rest, i ∈ p.imports := fun i hi => hl i (List.mem_cons_of_mem _ hi)
    simp only [List.foldl_cons]
    -- facts about the entry after this import
    have step :
        w0.ex ⊆ (impStep n workmap w0 imp).ex ∧ w0.in_ ⊆ (impStep n workmap w0 imp).in_ ∧
        (∀ e ∈ (impStep n workmap w0 imp).ex, Reach n pkgs p.path e) ∧
        (∀ r ∈ (impStep n workmap w0 imp).in_, ∀ e,
          Reach n pkgs r e → Reach n pkgs p.path e) ∧
        (specInternal n imp = false → imp ∈ (impStep n workmap w0 imp).ex) ∧
        (specInternal n imp = true → ∀ e, Reach n pkgs imp e →
          e ∈ (impStep n workmap w0 imp).ex ∨
          ∃ r ∈ (impStep n workmap w0 imp).in_, Reach n pkgs r e) := by
      by_cases hext : HasPrefix (Clean imp) n = true
      · have hint : specInternal n imp = true := by rw [← hag imp himp]; exact hext
        cases hw : workmap imp with
        | some w2 =>
          obtain ⟨s2, d2, c2⟩ := hwm imp w2 hw
          rw [((impStep_cases n workmap w0 imp).2.1 hext) w2 hw]
          refine ⟨Finset.subset_union_left, Finset.subset_union_left, ?_, ?_, ?_, ?_⟩
          · intro e he
            rcases Finset.mem_union.mp he with he | he
            · exact h2 e he
            · exact Reach.step p imp e hp himp hint (s2 e he)
          · intro r hr e hre
            rcases Finset.mem_union.mp hr with hr | hr
            · exact h3 r hr e hre
            · exact Reach.step p imp e hp himp hint (d2 r hr e hre)
          · intro h; rw [hint] at h; cases h
          · intro _ e he
            rcases c2 e he with h | ⟨r, hr, hre⟩
            · exact Or.inl (Finset.mem_union_right _ h)
            · exact Or.inr ⟨r, Finset.mem_union_right _ hr, hre⟩
        | none =>
          rw [(impStep_cases n workmap w0 imp).2.2 hext hw]
          refine ⟨Finset.Subset.refl _, Finset.subset_insert _ _, h2, ?_, ?_, ?_⟩
          · intro r hr e hre
            rcases Finset.mem_insert.mp hr with rfl | hr
            · exact Reach.step p r e hp himp hint hre
            · exact h3 r hr e hre
          · intro h; rw [hint] at h; cases h
          · intro _ e he
            exact Or.inr ⟨imp, Finset.mem_insert_self _ _, he⟩
      · have hext' : HasPrefix (Clean imp) n = false := by simpa using hext
        have hisext : specInternal n imp = false := by rw [← hag imp himp]; exact hext'
        rw [(impStep_cases n workmap w0 imp).1 hext']
        refine ⟨Finset.subset_insert _ _, Finset.Subset.refl _, ?_, h3, ?_, ?_⟩
        · intro e he
          rcases Finset.mem_insert.mp he with rfl | he
          · exact Reach.direct p e hp himp hisext
          · exact h2 e he
        · intro _; exact Finset.mem_insert_self _ _
        · intro h; rw [hisext] at h; cases h
    obtain ⟨s1, s2, s3, s4, s5, s6⟩ := step
    obtain ⟨i1, i2, i3, i4, i5, i6⟩ := ih hrest (impStep n workmap w0 imp) s3 s4
    refine ⟨s1.trans i1, s2.trans i2, i3, i4, ?_, ?_⟩
    · intro x hx hxe
      rcases List.mem_cons.mp hx with rfl | hx
      · exact i1 (s5 hxe)
      · exact i5 x hx hxe
    · intro x hx hxi e he
      rcases List.mem_cons.mp hx with rfl | hx
      · rcases s6 hxi e he with h | ⟨r, hr, hre⟩
        · exact Or.inl (i1 h)
        · exact Or.inr ⟨r, i2 hr, hre⟩
      · exact i6 x hx hxi e he

/-- The entry written for a package `p` is sound and complete. -/
theorem entry_ok (n : String) (pkgs : List tpkg) (hd : (pkgs.map tpkg.path).Nodup)
    (workmap : Workmap) (p : tpkg) (hp : p ∈ pkgs)
    (hag : ∀ imp ∈ p.imports, codeInternal n imp = specInternal n imp)
    (hwm : ∀ q w2, workmap q = some w2 → ∃ p2 ∈ pkgs, p2.path = q ∧ EntryOk n pkgs p2 w2) :
    EntryOk n pkgs p (p.imports.foldl (impStep n workmap) { ex := ∅, in_ := ∅ }) := by
  have hwm' : ∀ q w2, workmap q = some w2 →
      (∀ e ∈ w2.ex, Reach n pkgs q e) ∧
      (∀ r ∈ w2.in_, ∀ e, Reach n pkgs r e → Reach n pkgs q e) ∧
      (∀ e, Reach n pkgs q e → e ∈ w2.ex ∨ ∃ r ∈ w2.in_, Reach n pkgs r e) := by
    intro q w2 hq
    obtain ⟨p2, _, rfl, ok⟩ := hwm q w2 hq
    exact ⟨ok.sound, ok.deferred, ok.complete⟩
  obtain ⟨_, _, i3, i4, i5, i6⟩ := impLoop_spec n pkgs workmap p hp hag hwm' p.imports
    (fun _ h => h) { ex := ∅, in_ := ∅ } (fun e he => by simp at he)
    (fun r hr => by simp at hr)
  refine ⟨i5, i3, i4, ?_⟩
  intro e he
  obtain ⟨p', hp', hpath, h⟩ := (reach_iff n pkgs p.path e).mp he
  have : p' = p := path_injective pkgs hd p' p hp' hp hpath
  subst this
  rcases h with ⟨h1, h2⟩ | ⟨q, hq, hint, hr⟩
  · exact Or.inl (i5 e h1 h2)
  · exact i6 q hq hint e hr

/-- Invariant of the loop over the packages: every entry of the workmap
belongs to a package already visited, and the entry of every visited package is
sound and complete. -/
theorem pkgLoop_spec (n : String) (pkgs : List tpkg) (hd : (pkgs.map tpkg.path).Nodup)
    (hag : ∀ p ∈ pkgs, ∀ imp ∈ p.imports, codeInternal n imp = specInternal n imp)
    (todo done : List tpkg) (hall : pkgs = done ++ todo) (workmap w : Workmap)
    (hkeys : ∀ q w2, workmap q = some w2 → ∃ p2 ∈ done, p2.path = q)
    (hdone : ∀ p ∈ done, ∃ w2, workmap p.path = some w2 ∧ EntryOk n pkgs p w2)
    (h : pkgLoop n todo workmap = .ok w) :
    ∀ p ∈ pkgs, ∃ w2, w p.path = some w2 ∧ EntryOk n pkgs p w2 := by
  induction todo generalizing done workmap with
  | nil =>
    simp only [pkgLoop, Except.ok.injEq] at h
    subst h
    intro p hp
    rw [hall, List.append_nil] at hp
    exact hdone p hp
  | cons a rest ih =>
    unfold pkgLoop at h
    by_cases hv : HasPrefix (Clean a.path) n = true
    · simp only [pkgStep, hv, Bool.not_true, Bool.false_eq_true, if_false] at h
      have ha : a ∈ pkgs := by rw [hall]; simp
      have hdsub : ∀ p ∈ done, p ∈ pkgs := by
        intro p hp; rw [hall]; exact List.mem_append_left _ hp
      -- entries present in the workmap are those of visited packages
      have hwm : ∀ q w2, workmap q = some w2 →
          ∃ p2 ∈ pkgs, p2.path = q ∧ EntryOk n pkgs p2 w2 := by
        intro q w2 hq
        obtain ⟨p2, hp2, rfl⟩ := hkeys q w2 hq
        obtain ⟨w3, hw3, ok⟩ := hdone p2 hp2
        rw [hq] at hw3
        cases hw3
        exact ⟨p2, hdsub p2 hp2, rfl, ok⟩
      have hentry := entry_ok n pkgs hd workmap a ha (hag a ha) hwm
      -- a visited package has another path than `a`
      have hne : ∀ p ∈ done, p.path ≠ a.path := by
        intro p hp hpa
        have hpeq : p = a := path_injective pkgs hd p a (hdsub p hp) ha hpa
        subst hpeq
        have hnd : (done ++ p :: rest).Nodup := by
          rw [← hall]
          exact List.Nodup.of_map _ hd
        have := (List.nodup_append.mp hnd).2.2
        exact this hp (List.mem_cons_self _ _)
      refine ih (done ++ [a]) (by rw [hall]; simp) _ ?_ ?_ h
      · intro q w2 hq
        by_cases hqa : q = a.path
        · exact ⟨a, by simp, hqa.symm⟩
        · simp only [hqa, if_false] at hq
          obtain ⟨p2, hp2, hpq⟩ := hkeys q w2 hq
          exact ⟨p2, List.mem_append_left _ hp2, hpq⟩
      · intro p hp
        rcases List.mem_append.mp hp with hp | hp
        · obtain ⟨w2, hw2, ok⟩ := hdone p hp
          refine ⟨w2, ?_, ok⟩
          simp only [hne p hp, if_false]
          exact hw2
        · have hpa : p = a := by simpa using hp
          subst hpa
          exact ⟨_, by simp, hentry⟩
    · have hv' : HasPrefix (Clean a.path) n = false := by simpa using hv
      simp [pkgStep, hv'] at h

/-- The test of the code accepts every import that the spec calls internal. -/
theorem codeInternal_of_specInternal (n imp : String) (h : specInternal n imp = true) :
    codeInternal n imp = true := by
  unfold specInternal at h
  unfold codeInternal HasPrefix
  rw [List.isPrefixOf_iff_prefix]
  rcases (Bool.or_eq_true _ _).mp h with h | h
  · have h' : Clean imp = n := by simpa using h
    rw [h']
  · unfold HasPrefix at h
    rw [List.isPrefixOf_iff_prefix, String.data_append] at h
    exact (List.prefix_append _ _).trans h

/-- Where the test of the code and the partition of the spec agree on
every import of a depspec with pairwise distinct package paths, the workmap
preserves reach: the entry `w` of every package `p` has the direct external imports of `p`
in `w.ex`, every element of `w.ex` is reached from `p`, and what is reached
from `p` is exactly `w.ex` together with what is reached from the paths in
`w.in`; and the pass completes when every package passes validation. -/
theorem workmap_preserves_reach_where_tests_agree {V : Type} (d : depspec V)
    (hd : (d.pkgs.map tpkg.path).Nodup)
    (hag : ∀ p ∈ d.pkgs, ∀ imp ∈ p.imports, codeInternal d.n imp = specInternal d.n imp) :
    (∀ workmap, buildWorkmap d = .ok workmap →
      ∀ p ∈ d.pkgs, ∃ w, workmap p.path = some w ∧
        (∀ imp ∈ p.imports, specInternal d.n imp = false → imp ∈ w.ex) ∧
        (∀ e ∈ w.ex, Reach d.n d.pkgs p.path e) ∧
        (∀ e, Reach d.n d.pkgs p.path e ↔
          (e ∈ w.ex ∨ ∃ q ∈ w.in_, Reach d.n d.pkgs q e))) ∧
    ((∀ p ∈ d.pkgs, HasPrefix (Clean p.path) d.n = true) →
      ∃ workmap, buildWorkmap d = .ok workmap) := by
  refine ⟨?_, fun hvalid => pkgLoop_ok_of_valid d.n d.pkgs (fun _ => none) hvalid⟩
  intro workmap hw p hp
  obtain ⟨w, hw2, ok⟩ := pkgLoop_spec d.n d.pkgs hd hag d.pkgs [] rfl (fun _ => none) workmap
    (fun q w2 hq => by cases hq) (fun p hp => by cases hp) hw p hp
  refine ⟨w, hw2, ok.direct, ok.sound, ?_⟩
  intro e
  constructor
  · exact ok.complete e
  · rintro (h | ⟨q, hq, hr⟩)
    · exact ok.sound e h
    · exact ok.deferred q hq e hr

/-- C9 (failing input): in the project `foo` with the single package
`foo` importing `foobar`, the import is external for the spec and so reached from
`foo`; yet the entry `w` of `foo` in the workmap has an empty `w.ex`, and
nothing is reached from the one path `foobar` of `w.in`, which is not a
package.  So `w.ex` misses a direct external import, and the reach of `foo` is
not `w.ex` together with the reach of `w.in`. -/
theorem workmap_loses_foobar :
    (exampleFoobar.pkgs.map tpkg.path).Nodup ∧
    specInternal exampleFoobar.n "foobar" = false ∧
    Reach exampleFoobar.n exampleFoobar.pkgs "foo" "foobar" ∧
    ∃ workmap w, buildWorkmap exampleFoobar = .ok workmap ∧ workmap "foo" = some w ∧
      "foobar" ∉ w.ex ∧ w.in_ = {"foobar"} ∧
      ¬ ("foobar" ∈ w.ex ∨ ∃ q ∈ w.in_, Reach exampleFoobar.n exampleFoobar.pkgs q "foobar") := by
  have hno : ∀ e, ¬ Reach exampleFoobar.n exampleFoobar.pkgs "foobar" e := by
    intro e h
    obtain ⟨p, hp, hpath, _⟩ := (reach_iff _ _ _ _).mp h
    have hp' : p = pkg "foo" ["foobar"] := by
      simpa [exampleFoobar, dsp] using hp
    subst hp'
    exact absurd hpath (by decide)
  refine ⟨by decide, by decide, ?_, _, _, rfl, rfl, by decide, by decide, ?_⟩
  · exact Reach.direct (pkg "foo" ["foobar"]) "foobar" (by simp [exampleFoobar, dsp])
      (by simp [pkg]) (by decide)
  · rintro (h | ⟨q, hq, hr⟩)
    · exact absurd h (by decide)
    · have hq' : q = "foobar" := by
        have : q ∈ ({"foobar"} : Finset String) := hq
        simpa using this
      subst hq'
      exact hno _ hr

/-! ## The theorems at concrete inputs -/

/-- The model of `fillPackage` run on the example directory. -/
theorem fillPackage_example :
    fillPackage exampleEnv examplePkg =
      (none,
        { Dir := "/go/src/x", Name := "x", ImportPath := "x", Root := "/go",
          SrcRoot := "/go/src", Goroot := false, GoFiles := ["a.go"],
          IgnoredGoFiles := ["gen.go"], TestGoFiles := ["a_test.go"],
          Imports := ["fmt", "os"], TestImports := ["fmt", "testing"] }) := by
  decide

/-- The workmap of two packages that import each other: the first defers the
second, the second dereferences the first. -/
theorem buildWorkmap_example :
    ∃ workmap w1 w2, buildWorkmap exampleCycle = .ok workmap ∧
      workmap "root" = some w1 ∧ workmap "root/foo" = some w2 ∧
      w1.ex = {"a"} ∧ w1.in_ = {"root/foo"} ∧
      w2.ex = {"a", "b"} ∧ w2.in_ = {"root/foo"} :=
  ⟨_, _, _, rfl, rfl, rfl, by decide, by decide, by decide, by decide⟩

/-- C4 at the depspecs of the fixture "constraints activated by import": the
root is found whatever the version. -/
theorem ListPackages_root_ignores_version_witness :
    exampleSpecs.head? = some exampleRoot ∧ exampleRoot.n = "root" ∧
    ∀ v, ListPackages exampleMatches exampleSpecs "root" v = .ok (pkgMap exampleRoot.pkgs) :=
  ⟨rfl, by decide,
    (ListPackages_root_ignores_version exampleMatches exampleSpecs exampleRoot "root"
      rfl (by decide)).1⟩

/-- The example files parse to `exampleParsed`. -/
theorem exampleParsed_ok :
    ∀ f ∈ exampleFiles, exampleEnv.ParseFile f = .ok (exampleParsed f) := by
  intro f hf
  simp only [exampleFiles, List.mem_cons, List.mem_singleton, List.not_mem_nil,
    or_false] at hf
  rcases hf with rfl | rfl | rfl <;> rfl

/-- The import literals of the example files that are not ignored unquote to
`exampleUnq`. -/
theorem exampleUnq_ok :
    ∀ f ∈ exampleFiles, ignoredByTags exampleEnv.ignoreTags (exampleParsed f) = false →
      ∀ lit ∈ (exampleParsed f).Imports, exampleEnv.Unquote lit = .ok (exampleUnq lit) := by
  intro f hf hig lit hlit
  simp only [exampleFiles, List.mem_cons, List.mem_singleton, List.not_mem_nil,
    or_false] at hf
  rcases hf with rfl | rfl | rfl
  · have hl : lit = "`os`" ∨ lit = "`fmt`" ∨ lit = "`os`" := by
      simpa [exampleParsed, exampleParse] using hlit
    rcases hl with rfl | rfl | rfl <;> rfl
  · have hl : lit = "`testing`" ∨ lit = "`fmt`" := by
      simpa [exampleParsed, exampleParse] using hlit
    rcases hl with rfl | rfl <;> rfl
  · exact absurd hig (by decide)

/-- C5 at the example directory: one plain file, one test file and one ignored
file. -/
theorem fillPackage_splits_test_files_witness :
    (fillPackage exampleEnv examplePkg).1 = none ∧
    (fillPackage exampleEnv examplePkg).2.GoFiles = ["a.go"] ∧
    (fillPackage exampleEnv examplePkg).2.TestGoFiles = ["a_test.go"] ∧
    (fillPackage exampleEnv examplePkg).2.IgnoredGoFiles = ["gen.go"] ∧
    (fillPackage exampleEnv examplePkg).2.Imports = ["fmt", "os"] ∧
    (fillPackage exampleEnv examplePkg).2.TestImports = ["fmt", "testing"] :=
  have h := fillPackage_splits_test_files exampleEnv examplePkg exampleFiles exampleParsed
    exampleUnq rfl (by decide) rfl (by decide)
    exampleParsed_ok exampleUnq_ok
  ⟨h.1, h.2.1.trans (by decide), h.2.2.1.trans (by decide), h.2.2.2.1.trans (by decide),
    h.2.2.2.2.1.trans (by decide), h.2.2.2.2.2.trans (by decide)⟩

/-- C6 at a standard-library package. -/
theorem fillPackage_goroot_witness :
    exampleGorootPkg.Goroot = true ∧
    fillPackage exampleEnv exampleGorootPkg = (none, exampleGorootPkg) :=
  ⟨rfl, fillPackage_goroot exampleEnv exampleGorootPkg rfl⟩

/-- C8 at a list of depspecs whose second one has a package outside its
project. -/
theorem computeBimodalExternalMap_validates_witness :
    (∀ w, ∃ drm, exampleReach w "" = .ok drm) ∧
    (∃ q n, computeBimodalExternalMap exampleReach [exampleCycle, exampleStray] =
      .error (.notChild q n)) ∧
    (∃ workmap, buildWorkmap exampleCycle = .ok workmap ∧
      ∀ p ∈ exampleCycle.pkgs, ∃ w, workmap p.path = some w) :=
  ⟨fun _ => ⟨_, rfl⟩,
    (computeBimodalExternalMap_validates exampleReach (fun _ => ⟨_, rfl⟩)
      [exampleCycle, exampleStray]).1.mpr
      ⟨exampleStray, by simp, pkg "c" [], by simp [exampleStray, dsp], by decide⟩,
    (computeBimodalExternalMap_validates exampleReach (fun _ => ⟨_, rfl⟩)
      [exampleCycle, exampleStray]).2.2 exampleCycle (by simp) (by decide)⟩

/-- C2 at the example directory: the import `os` of the plain file is reported
in `Imports`, the import `testing` of the test file in `TestImports`. -/
theorem uniq_keeps_nonempty_strings_witness :
    "os" ∈ (fillPackage exampleEnv examplePkg).2.Imports ∧
    "testing" ∈ (fillPackage exampleEnv examplePkg).2.TestImports :=
  ⟨(uniq_keeps_nonempty_strings.2 exampleEnv examplePkg exampleFiles exampleParsed exampleUnq
      rfl (by decide) rfl exampleParsed_ok exampleUnq_ok
      "/go/src/x/a.go" (by decide) (by decide) "`os`" (by decide) (by decide)).2 (by decide),
   (uniq_keeps_nonempty_strings.2 exampleEnv examplePkg exampleFiles exampleParsed exampleUnq
      rfl (by decide) rfl exampleParsed_ok exampleUnq_ok
      "/go/src/x/a_test.go" (by decide) (by decide) "`testing`" (by decide) (by decide)).1
      (by decide)⟩

/-- The reach theorem at a depspec whose two packages import each other, where
the test of the code and the partition of the spec agree. -/
theorem workmap_preserves_reach_example :
    (exampleCycle.pkgs.map tpkg.path).Nodup ∧
    (∃ workmap, buildWorkmap exampleCycle = .ok workmap) ∧
    (∀ workmap, buildWorkmap exampleCycle = .ok workmap →
      ∀ p ∈ exampleCycle.pkgs, ∃ w, workmap p.path = some w ∧
        (∀ imp ∈ p.imports, specInternal exampleCycle.n imp = false → imp ∈ w.ex) ∧
        (∀ e ∈ w.ex, Reach exampleCycle.n exampleCycle.pkgs p.path e) ∧
        (∀ e, Reach exampleCycle.n exampleCycle.pkgs p.path e ↔
          (e ∈ w.ex ∨ ∃ q ∈ w.in_, Reach exampleCycle.n exampleCycle.pkgs q e))) :=
  ⟨by decide,
    (workmap_preserves_reach_where_tests_agree exampleCycle (by decide) (by decide)).2
      (by decide),
    (workmap_preserves_reach_where_tests_agree exampleCycle (by decide) (by decide)).1⟩


end Vsolver
